import Mathlib

/-!
Verification of the logfire reader/parser/merge pipeline.

The program's strings are byte strings of ASCII text; we model them as
`List Char`, and a file as one `List Char`.  Python's lexicographic string
comparison coincides with the linear order Mathlib puts on `List Char`
(elementwise by code point, a proper prefix sorts first), and we use that
order throughout.

Loops of the source become fuel-based recursions: every loop of the program
advances its file position by at least one byte per iteration, so a fuel of
`file.length + 1` makes the Lean function agree with the source wherever the
source terminates, while keeping every definition computable.
-/

/-- Python whitespace, as `str.rstrip()` and `str.rsplit(None, n)` use it. -/
def isPySpace (c : Char) : Bool :=
  c = ' ' || c = '\t' || c = '\n' || c = '\r' || c = '\x0b' || c = '\x0c'

/-- The longest prefix of a byte stream up to and including the first
newline; the whole stream when it has no newline.  `file.readline()` returns
exactly this when the stream stands at the start of the suffix. -/
def takeLine : List Char → List Char
  | [] => []
  | c :: cs => if c = '\n' then ['\n'] else c :: takeLine cs

/-- Python `file.readline()` at absolute position `pos` of `file`
(empty result = end of file). -/
def readLine (file : List Char) (pos : Nat) : List Char :=
  takeLine (file.drop pos)

/-- Whether `t` is a leading run of `s` (Python `s.startswith(t)`,
arguments in that order). -/
def pyStartswith : List Char → List Char → Bool
  | _, [] => true
  | [], _ :: _ => false
  | a :: as, b :: bs => a = b && pyStartswith as bs

/-- Whether `needle` occurs contiguously in `hay` (Python `needle in hay`). -/
def hasSub (needle : List Char) : List Char → Bool
  | [] => pyStartswith [] needle
  | c :: cs => pyStartswith (c :: cs) needle || hasSub needle cs

/-- Python `s.rstrip(...)` for the set of characters selected by `p`. -/
def rstripBy (p : Char → Bool) (s : List Char) : List Char :=
  (s.reverse.dropWhile p).reverse

/-- Normalisation of a Python slice/rfind end argument against a length:
`none` is Python's `None` (= the length), a negative integer counts from the
end, and everything is clamped into `[0, len]`. -/
def pyNormEnd (len : Nat) : Option Int → Nat
  | none => len
  | some e => if e < 0 then ((len : Int) + e).toNat else min e.toNat len

/-- Normalisation of a Python slice start argument against a length. -/
def pyNormStart (len : Nat) (a : Int) : Nat :=
  if a < 0 then ((len : Int) + a).toNat else min a.toNat len

/-- Python `s[a:b]` (`b = none` is an omitted bound). -/
def pySlice (s : List Char) (a : Int) (b : Option Int) : List Char :=
  (s.take (pyNormEnd s.length b)).drop (pyNormStart s.length a)

/-- Python `s[:b]`. -/
def pySliceTo (s : List Char) (b : Option Int) : List Char :=
  s.take (pyNormEnd s.length b)

/-- Python `s[a:]`. -/
def pySliceFrom (s : List Char) (a : Int) : List Char :=
  s.drop (pyNormStart s.length a)

/-- The last index `i < e` with `s[i] = c`, scanning downward. -/
def pyRfindAux (s : List Char) (c : Char) : Nat → Option Nat
  | 0 => none
  | k + 1 => if s[k]? = some c then some k else pyRfindAux s c k

/-- Python `s.rfind(c, 0, e)` (`e = none` for the two-argument form):
the greatest index below the normalised end holding `c`, or `-1`. -/
def pyRfind (s : List Char) (c : Char) (e : Option Int) : Int :=
  match pyRfindAux s c (pyNormEnd s.length e) with
  | none => -1
  | some k => (k : Int)

/-- The index of the first element satisfying `p`, if any. -/
def firstIdx (p : Char → Bool) : List Char → Option Nat
  | [] => none
  | c :: cs => if p c then some 0 else (firstIdx p cs).map (· + 1)

/-- Python `s.partition(c)` with the one-character separator dropped:
`(head, tail)`; on a miss Python returns `(s, '', '')`, here `(s, [])`. -/
def pyPartition (c : Char) (s : List Char) : List Char × List Char :=
  match firstIdx (· = c) s with
  | none => (s, [])
  | some k => (s.take k, s.drop (k + 1))

/-- Python `s.rpartition(c)` with the separator dropped: `(head, tail)`;
on a miss Python returns `('', '', s)`, here `([], s)`. -/
def pyRpartition (c : Char) (s : List Char) : List Char × List Char :=
  match pyRfindAux s c s.length with
  | none => ([], s)
  | some k => (s.take k, s.drop (k + 1))

/-- Python `s.split(d, maxsplit)` for a one-character separator `d`. -/
def pySplitCh (d : Char) : Nat → List Char → List (List Char)
  | 0, s => [s]
  | m + 1, s =>
    match firstIdx (· = d) s with
    | none => [s]
    | some k => s.take k :: pySplitCh d m (s.drop (k + 1))

/-- Decimal value accumulation for `int()`; `none` on a non-digit. -/
def digitsValAux : List Char → Nat → Option Nat
  | [], acc => some acc
  | c :: cs, acc =>
    if c.isDigit then digitsValAux cs (10 * acc + (c.toNat - 48)) else none

/-- The value of a nonempty all-digit string, else `none`. -/
def digitsVal : List Char → Option Nat
  | [] => none
  | c :: cs => digitsValAux (c :: cs) 0

/-- Python `s.strip()` of whitespace on both ends. -/
def stripPyWs (s : List Char) : List Char :=
  rstripBy isPySpace (s.dropWhile isPySpace)

/-- Python `int(s)`: surrounding whitespace allowed, an optional sign, then
one or more decimal digits; `none` when `int` would raise `ValueError`. -/
def pyInt (s : List Char) : Option Int :=
  match stripPyWs s with
  | [] => none
  | c :: rest =>
    if c = '-' then (digitsVal rest).map (fun n => -(n : Int))
    else if c = '+' then (digitsVal rest).map (fun n => (n : Int))
    else (digitsVal (c :: rest)).map (fun n => (n : Int))

/-- Little-endian decimal digits of `n`, with fuel (any fuel above `n`
is enough, since the argument shrinks by a factor of ten). -/
def natToDecAux : Nat → Nat → List Char
  | 0, _ => []
  | fuel + 1, n => if n = 0 then [] else Nat.digitChar (n % 10) :: natToDecAux fuel (n / 10)

/-- The decimal rendering of a natural number, Python's `'%d' % n` (the
source only ever formats nonnegative file positions and sizes). -/
def natToDec (n : Nat) : List Char :=
  if n = 0 then ['0'] else (natToDecAux (n + 1) n).reverse

/-- Python truthiness of an optional string: `None` and the empty string are
falsy. -/
def pyTruthy : Option (List Char) → Bool
  | none => false
  | some s => !s.isEmpty

/-! ### The log4j parser (src/logfire.py, class Log4jParser) -/

/-- The log levels (src/common.py and src/logfire.py, class LogLevel). -/
inductive LogLevel where
  | trace
  | debug
  | info
  | warn
  | error
  | fatal
deriving DecidableEq

/-- LogLevel.FROM_FIRST_LETTER: the module-level table from the first letter
of a level name to the level; every other key misses (the caller then takes
FATAL as the default). -/
def levelFromFirstLetter : List Char → Option LogLevel
  | ['T'] => some .trace
  | ['D'] => some .debug
  | ['I'] => some .info
  | ['W'] => some .warn
  | ['E'] => some .error
  | ['F'] => some .fatal
  | _ => none

/-- Log4jParser._read_log_level: strip leading brackets, take the first
character, look it up, default FATAL. -/
def readLogLevel (col : List Char) : LogLevel :=
  (levelFromFirstLetter ((col.dropWhile (· = '[')).take 1)).getD .fatal

/-- Log4jParser._read_flow_id and ._read_thread: a null column index gives
`none`, otherwise the column with trailing colons stripped. -/
def readColonStripped (cols : List (List Char)) : Option Nat → Option (List Char)
  | none => none
  | some i => some (rstripBy (· = ':') (cols.getD i []))

/-- Log4jParser._split_code_position: strip all trailing `:` and `)`,
split off the part after the last `(`, split that part's head at its last
`.` into class and method, split its tail at the first `:` into file and
line, and parse the line number with default `-1`. -/
def splitCodePosition (s : List Char) : List Char × List Char × List Char × Int :=
  let s1 := rstripBy (fun c => c = ':' || c = ')') s
  let p1 := pyRpartition '(' s1
  let p2 := pyRpartition '.' p1.1
  let p3 := pyPartition ':' p1.2
  (p2.1, p2.2, p3.1, (pyInt p3.2).getD (-1))

/-- Log4jParser._is_valid_code_position. -/
def isValidCodePosition (s : List Char) : Bool :=
  let r := splitCodePosition s
  !r.1.isEmpty && !r.2.1.isEmpty && !r.2.2.1.isEmpty && r.2.2.2 != -1

/-- Log4jParser._is_continuation_line: a nonempty line that does not begin
with "20" with a single space at index 23. -/
def isContinuationLine (l : List Char) : Bool :=
  !l.isEmpty && !(pyStartswith l ['2', '0'] && l[23]? == some ' ')

/-- Modelled from the spec: the parser helper `extract_timestamp` /
`get_time_string` that `LogReader._seek_time` calls on a header line is not
among the source files (the parser class in src/logfire.py predates it); per
section 4.A it returns the line's leading 23-character timestamp. -/
def getTimeString (line : List Char) : List Char :=
  line.take 23

/-- The parser's column configuration (the mutable fields of Log4jParser).
The defaults are the pattern %d %x %p %t %l: %m%n of Log4jParser.__init__. -/
structure ParserConfig where
  delimiter : Char := ' '
  columnCount : Nat := 5
  flowIdIdx : Option Nat := some 0
  levelIdx : Nat := 1
  threadIdx : Option Nat := some 2
  locationIdx : Nat := 3
  messageIdx : Nat := 4
deriving DecidableEq

/-- The default Log4jParser configuration. -/
def defaultConfig : ParserConfig := {}

/-- A parsed log entry (the namedtuple LogEntry of src/logfire.py, same
field names). -/
structure LogEntry where
  ts : List Char
  fid : Nat
  i : Nat
  flowid : Option (List Char)
  level : LogLevel
  thread : Option (List Char)
  clazz : List Char
  method : List Char
  file : List Char
  line : Int
  message : List Char
deriving DecidableEq

/-- Log4jParser._read_message, one loop step per unit of fuel: accumulate
continuation lines after the message column; at the first non-continuation
line seek back by its length (so the position does not move past it) and
return the accumulated text with trailing whitespace stripped. -/
def readMessageAux (file : List Char) : Nat → Nat → List Char → List Char × Nat
  | 0, pos, acc => (rstripBy isPySpace acc, pos)
  | fuel + 1, pos, acc =>
    let l := readLine file pos
    if isContinuationLine l then readMessageAux file fuel (pos + l.length) (acc ++ l)
    else (rstripBy isPySpace acc, pos)

/-- Log4jParser._read_message from column text `msgCol` at position `pos`
(the position just after the header line).  A continuation line is nonempty,
so `file.length + 1` units of fuel cover every possible iteration. -/
def readMessage (msgCol : List Char) (file : List Char) (pos : Nat) : List Char × Nat :=
  readMessageAux file (file.length + 1) pos msgCol

/-- Log4jParser.read, one header line per unit of fuel: skip lines that do
not start with "20" or split into too few columns (warn-logged in the
source), otherwise extract the fields, read the message together with its
continuation lines, and emit the entry; `i` counts emitted entries.  Returns
the entries together with the final file position. -/
def readAux (cfg : ParserConfig) (fid : Nat) (file : List Char) :
    Nat → Nat → Nat → List LogEntry × Nat
  | 0, pos, _ => ([], pos)
  | fuel + 1, pos, i =>
    let line := readLine file pos
    if line.isEmpty then ([], pos)
    else
      let ts := line.take 23
      if !pyStartswith ts ['2', '0'] then readAux cfg fid file fuel (pos + line.length) i
      else
        let cols := pySplitCh cfg.delimiter (cfg.columnCount - 1) (pySliceFrom line 24)
        if cols.length < cfg.columnCount then readAux cfg fid file fuel (pos + line.length) i
        else
          let level := readLogLevel (cols.getD cfg.levelIdx [])
          let flowid := readColonStripped cols cfg.flowIdIdx
          let thread := readColonStripped cols cfg.threadIdx
          let cp := splitCodePosition (cols.getD cfg.locationIdx [])
          let msg := readMessage (cols.getD cfg.messageIdx []) file (pos + line.length)
          let e : LogEntry :=
            ⟨ts, fid, i, flowid, level, thread, cp.1, cp.2.1, cp.2.2.1, cp.2.2.2, msg.1⟩
          let rest := readAux cfg fid file fuel msg.2 (i + 1)
          (e :: rest.1, rest.2)

/-- Log4jParser.read on `file` from position `pos`: the lazy generator run
to exhaustion, with the final stream position.  Every loop iteration
consumes at least one byte, so `file.length + 1` units of fuel suffice. -/
def readEntries (cfg : ParserConfig) (fid : Nat) (file : List Char) (pos : Nat) :
    List LogEntry × Nat :=
  readAux cfg fid file (file.length + 1) pos 0

/-! ### The entry filter (src/common.py and src/logreader.py, class LogFilter) -/

/-- The filter definition: a level set, an optional substring, an optional
closed lower and open upper time bound. -/
structure LogFilter where
  levels : List LogLevel := []
  grep : Option (List Char) := none
  timeFrom : Option (List Char) := none
  timeTo : Option (List Char) := none

/-- LogFilter.matches of src/common.py (the same code is in
src/logreader.py): each test runs only while the previous ones held and the
corresponding field is truthy; an empty level set accepts every level; the
grep text may occur in the message or in the class name; the time window
compares the timestamp text lexicographically. -/
def filterMatches (f : LogFilter) (e : LogEntry) : Bool :=
  let ok0 := f.levels.isEmpty || f.levels.contains e.level
  let ok1 :=
    if ok0 && pyTruthy f.grep then
      hasSub (f.grep.getD []) e.message || hasSub (f.grep.getD []) e.clazz
    else ok0
  let ok2 :=
    if ok1 && pyTruthy f.timeFrom then decide (f.timeFrom.getD [] ≤ e.ts) else ok1
  let ok3 :=
    if ok2 && pyTruthy f.timeTo then decide (e.ts < f.timeTo.getD []) else ok2
  ok3

/-! ### The aggregators (src/logfire.py, LogAggregator and NonOrderedLogAggregator) -/

/-- The heap key of an entry: `(timestamp_text, reader_id, entry_index)`.
The heap compares whole `LogEntry` tuples, but lexicographic tuple
comparison refines this key, so for every statement about key order the
key is the entry. -/
structure EntryKey where
  ts : List Char
  rid : Nat
  idx : Nat
deriving DecidableEq

/-- The lexicographic order on entry keys, the total order of section 3 of
the spec and the order `heapq` pops in. -/
def keyLe (a b : EntryKey) : Prop :=
  a.ts < b.ts ∨ (a.ts = b.ts ∧ (a.rid < b.rid ∨ (a.rid = b.rid ∧ a.idx ≤ b.idx)))

instance : DecidableRel keyLe := fun a b => by
  unfold keyLe; infer_instance

instance : IsTrans EntryKey keyLe :=
  ⟨by
    intro a b c h1 h2
    unfold keyLe at h1 h2 ⊢
    rcases h1 with h1 | ⟨e1, h1⟩
    · rcases h2 with h2 | ⟨e2, h2⟩
      · exact Or.inl (lt_trans h1 h2)
      · exact Or.inl (lt_of_lt_of_le h1 (le_of_eq e2))
    · rcases h2 with h2 | ⟨e2, h2⟩
      · exact Or.inl (lt_of_le_of_lt (le_of_eq e1) h2)
      · refine Or.inr ⟨e1.trans e2, ?_⟩
        omega⟩

instance : IsTotal EntryKey keyLe :=
  ⟨by
    intro a b
    unfold keyLe
    rcases lt_trichotomy a.ts b.ts with h | h | h
    · exact Or.inl (Or.inl h)
    · have hP : (a.rid < b.rid ∨ (a.rid = b.rid ∧ a.idx ≤ b.idx))
          ∨ (b.rid < a.rid ∨ (b.rid = a.rid ∧ b.idx ≤ a.idx)) := by omega
      rcases hP with hP | hP
      · exact Or.inl (Or.inr ⟨h, hP⟩)
      · exact Or.inr (Or.inr ⟨h.symm, hP⟩)
    · exact Or.inr (Or.inl h)⟩

/-- The ordered aggregator's state: the heap of entries and the set of
still-open readers.  `heapq` is Python's standard library; we model the
heap by its contract, as the multiset of its entries kept in `keyLe` order,
with `heappush` an ordered insert and `heappop` removal of the head. -/
structure OrderedAggregator where
  entries : List EntryKey
  openFiles : Finset Nat
deriving DecidableEq

/-- LogAggregator.__init__ for `n` file names. -/
def orderedAggInit (n : Nat) : OrderedAggregator :=
  ⟨[], Finset.range n⟩

/-- LogAggregator.add: `heapq.heappush(self.entries, entry)`. -/
def orderedAggAdd (st : OrderedAggregator) (e : EntryKey) : OrderedAggregator :=
  ⟨List.orderedInsert keyLe e st.entries, st.openFiles⟩

/-- LogAggregator.eof: `self.open_files.remove(fid)`; Python's `set.remove`
raises `KeyError` when the element is absent, modelled as `none`. -/
def orderedAggEof (st : OrderedAggregator) (fid : Nat) : Option OrderedAggregator :=
  if fid ∈ st.openFiles then some ⟨st.entries, st.openFiles.erase fid⟩ else none

/-- One step of LogAggregator.get: `heapq.heappop` when the heap is
nonempty (yielding the least entry), otherwise the IndexError branch that
only sleeps and yields nothing. -/
def orderedAggPop (st : OrderedAggregator) : OrderedAggregator × Option EntryKey :=
  match st.entries with
  | [] => (st, none)
  | e :: rest => (⟨rest, st.openFiles⟩, some e)

/-- The FIFO aggregator's state (NonOrderedLogAggregator): a deque and the
open-reader set. -/
structure FifoAggregator where
  entries : List EntryKey
  openFiles : Finset Nat
deriving DecidableEq

/-- NonOrderedLogAggregator.__init__ for `n` file names. -/
def fifoAggInit (n : Nat) : FifoAggregator :=
  ⟨[], Finset.range n⟩

/-- NonOrderedLogAggregator.add: `self.entries.append(entry)`. -/
def fifoAggAdd (st : FifoAggregator) (e : EntryKey) : FifoAggregator :=
  ⟨st.entries ++ [e], st.openFiles⟩

/-- NonOrderedLogAggregator.eof: `set.remove`, `KeyError` as `none`. -/
def fifoAggEof (st : FifoAggregator) (fid : Nat) : Option FifoAggregator :=
  if fid ∈ st.openFiles then some ⟨st.entries, st.openFiles.erase fid⟩ else none

/-- One step of NonOrderedLogAggregator.get: `popleft` when nonempty. -/
def fifoAggPop (st : FifoAggregator) : FifoAggregator × Option EntryKey :=
  match st.entries with
  | [] => (st, none)
  | e :: rest => (⟨rest, st.openFiles⟩, some e)

/-- An interleaving of producer and consumer activity on the aggregator:
an `add` call by a reader, or one pop attempt of the draining loop. -/
inductive AggOp where
  | add (e : EntryKey)
  | drain
deriving DecidableEq

/-- Run an interleaving against the ordered aggregator, collecting the
entries the drain steps yield, in order. -/
def runOrderedAgg : List AggOp → OrderedAggregator → OrderedAggregator × List EntryKey
  | [], st => (st, [])
  | .add e :: ops, st => runOrderedAgg ops (orderedAggAdd st e)
  | .drain :: ops, st =>
    let p := orderedAggPop st
    let r := runOrderedAgg ops p.1
    (r.1, p.2.toList ++ r.2)

/-- The sequence of entries reader `rid` adds in an interleaving. -/
def addsOf (rid : Nat) (ops : List AggOp) : List EntryKey :=
  ops.filterMap fun op =>
    match op with
    | .add e => if e.rid = rid then some e else none
    | .drain => none

/-- Claim C1 as stated: whenever every reader's own additions are
non-decreasing in the key, any interleaving of adds and drain steps yields
an overall non-decreasing drained sequence. -/
def orderedMergeClaim : Prop :=
  ∀ (n : Nat) (ops : List AggOp),
    (∀ r, (addsOf r ops).Chain' keyLe) →
    ((runOrderedAgg ops (orderedAggInit n)).2).Chain' keyLe

/-! ### The checkpoint store (src/logreader.py, _make_progress_string and
_load_progress) -/

/-- Worker for `str.rsplit(None, maxsplit)` on the reversed string:
CPython skips whitespace from the right, peels off a word, and once
maxsplit words are taken keeps everything up to the last non-whitespace
character as the final (leftmost) field. -/
def rsplitWsAux : List Char → Nat → List (List Char) → List (List Char)
  | rev, 0, acc =>
    let r := rev.dropWhile isPySpace
    if r.isEmpty then acc else r.reverse :: acc
  | rev, n + 1, acc =>
    let r := rev.dropWhile isPySpace
    if r.isEmpty then acc
    else
      let w := r.takeWhile (fun c => !isPySpace c)
      rsplitWsAux (r.dropWhile (fun c => !isPySpace c)) n (w.reverse :: acc)

/-- Python `s.rsplit(None, maxsplit)`. -/
def pyRsplitWs (s : List Char) (maxsplit : Nat) : List (List Char) :=
  rsplitWsAux s.reverse maxsplit []

/-- LogReader._make_progress_string: the checkpoint line
`path identity position size`, space separated, `%d` decimal integers.
Positions and sizes are file offsets, hence naturals. -/
def makeProgressString (path ident : List Char) (pos size : Nat) : List Char :=
  path ++ ' ' :: (ident ++ ' ' :: (natToDec pos ++ ' ' :: natToDec size))

/-- LogReader._load_progress applied to the checkpoint file's contents:
right-split on whitespace three times, demand exactly four fields, parse
the last two as integers; `none` models the exception path (the caller
treats it as a missing checkpoint). -/
def loadProgress (content : List Char) : Option (List Char × List Char × Int × Int) :=
  match pyRsplitWs content 3 with
  | [f, ident, p, s] =>
    match pyInt p, pyInt s with
    | some pi, some si => some (f, ident, pi, si)
    | _, _ => none
  | _ => none

/-! ### Tail-N seeking (src/logreader.py, LogReader._seek_tail) -/

/-- The inner while loop of _seek_tail, one examined newline per unit of
fuel.  `chunk` is the current chunk extended by the retained tail, `base`
its absolute offset, `prevNl` the previous newline position (Python `None`
as `none`), `current` the current one (Python's `-1` for a miss; `rfind`
never returns below `-1`, so the loop test `!= -1` is `current < 0` here).
Between two newline positions lies one line; a line that is not a
continuation line counts, and at the `N`-th count the loop returns the
absolute seek target.  Result: `(found target?, count, prevNl)`. -/
def seekTailWhileAux (contf : List Char → Bool) (N : Nat) (base : Nat) (chunk : List Char) :
    Nat → Nat → Option Int → Int → Option Nat × Nat × Option Int
  | 0, count, prevNl, _ => (none, count, prevNl)
  | fuel + 1, count, prevNl, current =>
    if current < 0 then (none, count, prevNl)
    else
      let l := pySlice chunk (current + 1) prevNl
      if contf l then
        seekTailWhileAux contf N base chunk fuel count (some current)
          (pyRfind chunk '\n' (some current))
      else
        let count2 := count + 1
        if N ≤ count2 then (some (base + current.toNat + 1), count2, prevNl)
        else
          seekTailWhileAux contf N base chunk fuel count2 (some current)
            (pyRfind chunk '\n' (some current))

/-- The chunk loop of _seek_tail, highest chunk index first (`idx` is one
past the chunk index to process; `isFirst` marks Python's iteration 0).
Each iteration reads its chunk, appends the tail retained from the chunk
above (the text before that chunk's first newline, so a line straddling the
boundary is reassembled), and scans newlines from the right.  Falling out
of the loop seeks to 0 (the for-else branch). -/
def seekTailForAux (contf : List Char → Bool) (file : List Char) (chunkSize N : Nat) :
    Nat → List Char → Nat → Option Int → Bool → Nat
  | 0, _, _, _, _ => 0
  | idx + 1, chunk, count, prevNl, isFirst =>
    let lineTail := pySliceTo chunk prevNl
    let chunk2 := (file.drop (chunkSize * idx)).take chunkSize ++ lineTail
    let prevNl2 : Option Int := if isFirst then some (pyRfind chunk2 '\n' none) else none
    let current := pyRfind chunk2 '\n' prevNl2
    let w := seekTailWhileAux contf N (chunkSize * idx) chunk2 (chunk2.length + 1)
      count prevNl2 current
    match w.1 with
    | some target => target
    | none => seekTailForAux contf file chunkSize N idx chunk2 w.2.1 w.2.2 false

/-- LogReader._seek_tail: the resulting absolute file position, for tail
length `N` over chunks of `chunkSize` (the source's CHUNK_SIZE attribute,
1024).  `contf` is the parser's continuation-line test. -/
def seekTail (contf : List Char → Bool) (file : List Char) (chunkSize N : Nat) : Nat :=
  let fileSize := file.length
  let chunkCount := fileSize / chunkSize + (if fileSize % chunkSize = 0 then 0 else 1)
  seekTailForAux contf file chunkSize N chunkCount [] 0 none true

/-! ### Timestamp seeking (src/logreader.py, LogReader._seek_time) -/

/-- The readline loop shared by _seek_time's helpers: skip leading
continuation lines, return the first other line together with the position
just past it. -/
def skipContinuation (contf : List Char → Bool) (file : List Char) :
    Nat → Nat → List Char × Nat
  | 0, pos => (readLine file pos, pos + (readLine file pos).length)
  | fuel + 1, pos =>
    let l := readLine file pos
    if !l.isEmpty && contf l then skipContinuation contf file fuel (pos + l.length)
    else (l, pos + l.length)

/-- get_first_timestamp_in_chunk: seek to the chunk, skip continuation
lines, and return the first full header line's timestamp; when no complete
line remains, the sentinel that sorts above every timestamp. -/
def firstTimestampInChunk (contf : List Char → Bool) (file : List Char)
    (chunkSize chunkIndex : Nat) : List Char :=
  let r := skipContinuation contf file (file.length + 1) (chunkSize * chunkIndex)
  if !r.1.isEmpty && r.1.getLast? == some '\n' then getTimeString r.1
  else ("greater than any time string").toList

/-- binary_chunk_search on chunk indices, one halving per unit of fuel
(the interval shrinks every step, so fuel `stop - start` suffices):
narrow `[start, stop)` to a single index, going left exactly when the
pivot chunk's first timestamp exceeds the target. -/
def binaryChunkSearch (ft : Nat → List Char) (t : List Char) :
    Nat → Nat → Nat → Nat
  | 0, start, _ => start
  | fuel + 1, start, stop =>
    if start + 1 = stop then start
    else
      let pivot := (start + stop) / 2
      if decide (t < ft pivot) then binaryChunkSearch ft t fuel start pivot
      else binaryChunkSearch ft t fuel pivot stop

/-- seek_time_in_chunk's scan, one line per unit of fuel: from `pos`, skip
continuation lines, stop just before the first header line whose timestamp
is at least the target (the source seeks back by the line's length), and
on an incomplete or missing line seek to the end of the file. -/
def seekTimeInChunkAux (contf : List Char → Bool) (file : List Char) (t : List Char) :
    Nat → Nat → Nat
  | 0, pos => pos
  | fuel + 1, pos =>
    let l := readLine file pos
    if !l.isEmpty && l.getLast? == some '\n' then
      if contf l then seekTimeInChunkAux contf file t fuel (pos + l.length)
      else if decide (t ≤ getTimeString l) then pos
      else seekTimeInChunkAux contf file t fuel (pos + l.length)
    else file.length

/-- LogReader._seek_time: binary search for the target chunk over indices
`0 ..= chunk_count`, then the linear scan inside it; the result is the
absolute file position the reader is left at. -/
def seekTime (contf : List Char → Bool) (file : List Char) (chunkSize : Nat)
    (t : List Char) : Nat :=
  let fileSize := file.length
  let chunkCount := fileSize / chunkSize + (if fileSize % chunkSize = 0 then 0 else 1)
  let target := binaryChunkSearch (firstTimestampInChunk contf file chunkSize) t
    (chunkCount + 2) 0 (chunkCount + 1)
  seekTimeInChunkAux contf file t (file.length + 1) (chunkSize * target)

/-! ### The reader loop (src/logreader.py, LogReader.run) -/

/-- LogReader.run's delivery in follow mode, sleeps and housekeeping
dropped: each element of `snapshots` is the file's contents at the moment
the parser's read generator is invoked anew, the position carries over from
one invocation to the next, and the entries that pass the filter are
delivered to the aggregator in order. -/
def followDelivered (cfg : ParserConfig) (flt : LogFilter) (fid : Nat) :
    List (List Char) → Nat → List LogEntry
  | [], _ => []
  | snap :: rest, pos =>
    let r := readEntries cfg fid snap pos
    r.1.filter (fun e => filterMatches flt e) ++ followDelivered cfg flt fid rest r.2

/-! ### Line-level views of a file, for stating the seek claims -/

/-- A file assembled from newline-free line contents, each line
newline-terminated. -/
def fileOfLines (lines : List (List Char)) : List Char :=
  (lines.map (fun l => l ++ ['\n'])).flatten

/-- The byte offset at which line `j` of such a file starts. -/
def lineStart (lines : List (List Char)) (j : Nat) : Nat :=
  (((lines.take j).map (fun l => l.length + 1)).sum)

/-- Whether byte position `p` of `file` starts a line. -/
def isLineStart (file : List Char) (p : Nat) : Prop :=
  p < file.length ∧ (p = 0 ∨ file[p - 1]? = some '\n')

instance (file : List Char) (p : Nat) : Decidable (isLineStart file p) := by
  unfold isLineStart; infer_instance

/-- Whether a header line (a line the parser's continuation test classifies
as a header) starts at byte position `p` of `file`. -/
def headerLineAt (file : List Char) (p : Nat) : Prop :=
  isLineStart file p ∧ isContinuationLine (readLine file p) = false

instance (file : List Char) (p : Nat) : Decidable (headerLineAt file p) := by
  unfold headerLineAt; infer_instance

/-- Claim C3 as stated, for the source's chunk size of 1024 and the
standard parser: after seeking to time `t`, the parser's next entry has a
timestamp at least `t` (or there is none), and no header line with
timestamp at least `t` starts before the position seeked to. -/
def seekTimeClaim (file t : List Char) : Prop :=
  (∀ e, ((readEntries defaultConfig 0 file (seekTime isContinuationLine file 1024 t)).1).head?
      = some e → t ≤ e.ts) ∧
  (∀ p, headerLineAt file p → t ≤ getTimeString (readLine file p) →
    seekTime isContinuationLine file 1024 t ≤ p)

/-! ### Segment views of chunks and files, for the seek proofs -/

/-- A list of newline-free segments joined by single newlines (no trailing
newline): the shape of every chunk the tail seek scans. -/
def joinNl : List (List Char) → List Char
  | [] => []
  | [s] => s
  | s :: t :: rest => s ++ '\n' :: joinNl (t :: rest)

/-- The total length of a run of newline-terminated lines. -/
def segLenSum (ss : List (List Char)) : Nat :=
  (ss.map (fun s => s.length + 1)).sum

/-- The reference scan of _seek_tail, over the examined line contents in
descending file order (the bottommost element of the list is the part of
the file before its first newline, which the scan never examines):
count each line the continuation test rejects, and at the `N`-th count
return the byte offset at which that line starts; the second component is
the running count. -/
def segScanR (contf : List Char → Bool) (N base : Nat) :
    List (List Char) → Nat → Option Nat × Nat
  | [], count => (none, count)
  | [_], count => (none, count)
  | s :: t :: rest, count =>
    if contf s then segScanR contf N base (t :: rest) count
    else if N ≤ count + 1 then (some (base + segLenSum (t :: rest)), count + 1)
    else segScanR contf N base (t :: rest) (count + 1)

/-! ### Spec-worded reference predicates, for stating the claims -/

/-- Claim C5 as stated: level in the set (or the set empty), grep contained
in message or class name whenever grep is present, and the time window
applied whenever its bound is present. -/
def filterMatchesStated (f : LogFilter) (e : LogEntry) : Bool :=
  (f.levels.isEmpty || f.levels.contains e.level) &&
  (match f.grep with
   | none => true
   | some g => hasSub g e.message || hasSub g e.clazz) &&
  (match f.timeFrom with
   | none => true
   | some tf => decide (tf ≤ e.ts)) &&
  (match f.timeTo with
   | none => true
   | some tt => decide (e.ts < tt))

/-- Claim C5 amended: as stated, except that the upper time bound — like
every field, by Python truthiness — is applied only when it is present and
non-empty.  (A present-but-empty grep or lower bound is skipped by the code
too, but skipping those is equivalent to applying them.) -/
def filterMatchesAmended (f : LogFilter) (e : LogEntry) : Bool :=
  (f.levels.isEmpty || f.levels.contains e.level) &&
  (match f.grep with
   | none => true
   | some g => hasSub g e.message || hasSub g e.clazz) &&
  (match f.timeFrom with
   | none => true
   | some tf => decide (tf ≤ e.ts)) &&
  (match f.timeTo with
   | none => true
   | some tt => tt.isEmpty || decide (e.ts < tt))

/-- Claim C8 as stated: strip exactly one trailing colon and then exactly
one trailing closing parenthesis before the partitioning steps (which are
as the code performs them). -/
def splitCodePositionStated (s : List Char) : List Char × List Char × List Char × Int :=
  let s1 := if s.getLast? = some ':' then s.dropLast else s
  let s2 := if s1.getLast? = some ')' then s1.dropLast else s1
  let p1 := pyRpartition '(' s2
  let p2 := pyRpartition '.' p1.1
  let p3 := pyPartition ':' p1.2
  (p2.1, p2.2, p3.1, (pyInt p3.2).getD (-1))

/-- Claim C8 amended, written out from the amended wording with the
partition steps spelled as index searches: strip all trailing `:` and `)`
characters; the class-and-method part is what precedes the last `(` (empty
when there is none) and the file-and-line part what follows it (everything
when there is none); class and method split likewise at the last `.`; file
and line split at the first `:` (the file part is everything and the line
empty when there is none); a line number that does not parse as an integer
becomes `-1`. -/
def splitCodePositionAmended (s : List Char) : List Char × List Char × List Char × Int :=
  let s1 := (s.reverse.dropWhile (fun c => c = ':' || c = ')')).reverse
  let kp := firstIdx (· = '(') s1.reverse
  let cam := match kp with
    | none => []
    | some k => s1.take (s1.length - 1 - k)
  let fal := match kp with
    | none => s1
    | some k => s1.drop (s1.length - k)
  let kd := firstIdx (· = '.') cam.reverse
  let cls := match kd with
    | none => []
    | some k => cam.take (cam.length - 1 - k)
  let mth := match kd with
    | none => cam
    | some k => cam.drop (cam.length - k)
  let kc := firstIdx (· = ':') fal
  let fil := match kc with
    | none => fal
    | some k => fal.take k
  let lin := match kc with
    | none => []
    | some k => fal.drop (k + 1)
  (cls, mth, fil, (pyInt lin).getD (-1))

/-! ## Theorems -/

/-! ### Generic facts about the order on `List Char` and the helpers -/

theorem nilStrLe (l : List Char) : ([] : List Char) ≤ l := by
  cases l with
  | nil => exact le_refl _
  | cons c cs => exact le_of_lt (List.nil_lt_cons c cs)

theorem notLtNil (l : List Char) : ¬ l < [] := by
  intro h
  exact absurd (lt_of_le_of_lt (nilStrLe l) h) (lt_irrefl _)

theorem hasSubNil (l : List Char) : hasSub [] l = true := by
  cases l <;> simp [hasSub, pyStartswith]

theorem isEmptyFalse {l : List Char} (h : l ≠ []) : l.isEmpty = false := by
  cases l with
  | nil => exact absurd rfl h
  | cons c cs => rfl

/-! ### C10: eof on a reader outside the open set raises KeyError -/

/-- C10: for both aggregator variants, `eof` with a reader id outside the
current open set — in particular a second `eof` with the same id — raises
`KeyError` (modelled as `none`) instead of being a no-op. -/
theorem eof_unknown_reader_raises (stO : OrderedAggregator) (stF : FifoAggregator) (fid : Nat) :
    (fid ∉ stO.openFiles → orderedAggEof stO fid = none) ∧
    (fid ∉ stF.openFiles → fifoAggEof stF fid = none) ∧
    (∀ stO2, orderedAggEof stO fid = some stO2 → orderedAggEof stO2 fid = none) ∧
    (∀ stF2, fifoAggEof stF fid = some stF2 → fifoAggEof stF2 fid = none) := by
  refine ⟨fun h => by simp [orderedAggEof, h], fun h => by simp [fifoAggEof, h], ?_, ?_⟩
  · intro st2 h
    unfold orderedAggEof at h ⊢
    by_cases hm : fid ∈ stO.openFiles
    · rw [if_pos hm] at h
      cases h
      simp
    · rw [if_neg hm] at h
      cases h
  · intro st2 h
    unfold fifoAggEof at h ⊢
    by_cases hm : fid ∈ stF.openFiles
    · rw [if_pos hm] at h
      cases h
      simp
    · rw [if_neg hm] at h
      cases h

/-- Witness for C10 at concrete states: reader 5 is not in the initial open
set of two readers, and a second eof for reader 0 errors. -/
theorem eof_unknown_reader_raises_witness :
    orderedAggEof (orderedAggInit 2) 5 = none ∧
    fifoAggEof (fifoAggInit 2) 5 = none ∧
    orderedAggEof ⟨[], (Finset.range 2).erase 0⟩ 0 = none ∧
    fifoAggEof ⟨[], (Finset.range 2).erase 0⟩ 0 = none := by
  have h := eof_unknown_reader_raises (orderedAggInit 2) (fifoAggInit 2) 5
  have h2 := eof_unknown_reader_raises (orderedAggInit 2) (fifoAggInit 2) 0
  exact ⟨h.1 (by decide), h.2.1 (by decide),
    h2.2.2.1 _ (by decide), h2.2.2.2 _ (by decide)⟩

/-! ### C5: the filter's semantics -/

/-- C5 counterexample: with an upper time bound that is present but empty,
the code skips the bound (Python truthiness) and matches, while the claim's
window `ts < ""` matches nothing. -/
theorem filter_time_to_truthiness_counterexample :
    filterMatches ⟨[], none, none, some []⟩
      ⟨("2000-01-01 00:00:00,000").toList, 0, 0, none, .info, none, [], [], [], -1, []⟩ = true ∧
    filterMatchesStated ⟨[], none, none, some []⟩
      ⟨("2000-01-01 00:00:00,000").toList, 0, 0, none, .info, none, [], [], [], -1, []⟩ = false := by
  constructor <;> rfl

/-- C5 amended: `matches` is exactly the stated conjunction, with the upper
time bound applied only when present and non-empty (for the level set, the
grep text and the lower bound, present-but-empty is equivalent either way). -/
theorem filter_matches_amended (f : LogFilter) (e : LogEntry) :
    filterMatches f e = filterMatchesAmended f e := by
  rcases f with ⟨lv, g, tf, tt⟩
  unfold filterMatches filterMatchesAmended
  rcases g with _ | g <;> rcases tf with _ | tf <;> rcases tt with _ | tt <;>
    simp only [pyTruthy] <;>
    cases hb : (lv.isEmpty || lv.contains e.level) <;>
    split_ifs <;>
    simp_all [List.isEmpty_iff, isEmptyFalse, hasSubNil, decide_eq_true (nilStrLe e.ts)] <;>
    cases hA : (hasSub g e.message || hasSub g e.clazz) <;>
    cases hF : (decide (tf ≤ e.ts)) <;>
    simp_all [List.isEmpty_iff, isEmptyFalse, hasSubNil, decide_eq_true (nilStrLe e.ts)]

/-! ### C8: the code-location splitter -/

theorem pyRfindAuxBound (s : List Char) (c : Char) (k j : Nat)
    (h : pyRfindAux s c k = some j) : j < k := by
  induction k with
  | zero => simp [pyRfindAux] at h
  | succ k ih =>
    unfold pyRfindAux at h
    by_cases he : s[k]? = some c
    · rw [if_pos he] at h
      cases h
      omega
    · rw [if_neg he] at h
      exact Nat.lt_succ_of_lt (ih h)

theorem firstIdxLtLength (p : Char → Bool) (l : List Char) (k : Nat)
    (h : firstIdx p l = some k) : k < l.length := by
  induction l generalizing k with
  | nil => simp [firstIdx] at h
  | cons a l ih =>
    unfold firstIdx at h
    by_cases hp : p a
    · rw [if_pos hp] at h
      cases h
      simp
    · rw [if_neg hp] at h
      rcases hm : firstIdx p l with _ | j
      · rw [hm] at h
        simp at h
      · rw [hm] at h
        simp at h
        cases h
        have := ih j hm
        simp only [List.length_cons]
        omega

theorem pyRfindAuxAppend (s t : List Char) (c : Char) (k : Nat) (hk : k ≤ s.length) :
    pyRfindAux (s ++ t) c k = pyRfindAux s c k := by
  induction k with
  | zero => rfl
  | succ k ih =>
    unfold pyRfindAux
    rw [List.getElem?_append_left (by omega), ih (by omega)]

theorem pyRfindAuxSnoc (s : List Char) (a c : Char) :
    pyRfindAux (s ++ [a]) c (s.length + 1) =
      if a = c then some s.length else pyRfindAux s c s.length := by
  conv_lhs => rw [pyRfindAux]
  rw [List.getElem?_concat_length, pyRfindAuxAppend s [a] c s.length le_rfl]
  by_cases h : a = c
  · simp [h]
  · simp [h]

theorem pyRfindAuxReverse (s : List Char) (c : Char) :
    pyRfindAux s c s.length =
      (firstIdx (· = c) s.reverse).map (fun k => s.length - 1 - k) := by
  induction s using List.reverseRecOn with
  | nil => rfl
  | append_singleton s a ih =>
    rw [List.length_append, List.length_cons, List.length_nil, Nat.zero_add,
      pyRfindAuxSnoc, List.reverse_append]
    simp only [List.reverse_cons, List.reverse_nil, List.nil_append, List.singleton_append]
    unfold firstIdx
    by_cases h : a = c
    · simp [h]
    · simp only [h, if_false, decide_eq_true_eq, ih]
      rcases hf : firstIdx (· = c) s.reverse with _ | k
      · simp
      · simp only [Option.map_map, Option.map_some, Function.comp]
        have harith : s.length - 1 - k = s.length + 1 - 1 - (k + 1) := by omega
        exact congrArg some harith

theorem pyRpartitionChar (c : Char) (s : List Char) :
    pyRpartition c s =
      (match firstIdx (· = c) s.reverse with
       | none => ([], s)
       | some k => (s.take (s.length - 1 - k), s.drop (s.length - k))) := by
  unfold pyRpartition
  rw [pyRfindAuxReverse]
  rcases h : firstIdx (· = c) s.reverse with _ | k
  · rfl
  · have hk : k < s.length := by
      have := firstIdxLtLength _ _ _ h
      simpa using this
    show (s.take (s.length - 1 - k), s.drop (s.length - 1 - k + 1))
      = (s.take (s.length - 1 - k), s.drop (s.length - k))
    have he : s.length - 1 - k + 1 = s.length - k := by omega
    rw [he]

/-- C8 counterexample: on `"C.m(C.java:23))"` the code strips both trailing
parentheses (`rstrip` strips a character set, not one occurrence of each
character) and parses line 23, while the claim's one-colon-one-parenthesis
strip leaves `"23)"`, which fails to parse and gives -1. -/
theorem split_code_position_counterexample :
    splitCodePosition (("C.m(C.java:23))").toList)
      = (['C'], ['m'], ("C.java").toList, 23) ∧
    splitCodePositionStated (("C.m(C.java:23))").toList)
      = (['C'], ['m'], ("C.java").toList, -1) := by
  constructor <;> rfl

/-- C8 amended: the splitter strips all trailing `:` and `)` characters
(not one of each), then partitions at the last `(`, the last `.` and the
first `:`, each missing part defaulting to the empty string and a
non-numeric line number to -1 — the reference formulation, spelled with
index searches, agrees with the code on every string. -/
theorem split_code_position_amended (s : List Char) :
    splitCodePosition s = splitCodePositionAmended s := by
  unfold splitCodePosition splitCodePositionAmended rstripBy
  simp only [pyRpartitionChar, pyPartition]
  generalize (s.reverse.dropWhile (fun c => c = ':' || c = ')')).reverse = s1
  rcases h1 : firstIdx (· = '(') s1.reverse with _ | k1 <;> simp only [h1]
  · rcases h3 : firstIdx (· = ':') s1 with _ | k3 <;>
      simp only [h3, List.reverse_nil, firstIdx]
  · rcases h2 : firstIdx (· = '.') (s1.take (s1.length - 1 - k1)).reverse with _ | k2 <;>
      rcases h3 : firstIdx (· = ':') (s1.drop (s1.length - k1)) with _ | k3 <;>
        simp only [h2, h3]

/-! ### C7: the checkpoint round-trip -/

theorem pySpaceChars {c : Char} (hs : isPySpace c = true) :
    c = ' ' ∨ c = '\t' ∨ c = '\n' ∨ c = '\r' ∨ c = '\x0b' ∨ c = '\x0c' := by
  simp [isPySpace] at hs
  tauto

theorem digitNotSpace {c : Char} (hd : c.isDigit = true) : isPySpace c = false := by
  cases hs : isPySpace c
  · rfl
  · rcases pySpaceChars hs with rfl | rfl | rfl | rfl | rfl | rfl <;> simp at hd

theorem alphaNotSpace {c : Char} (hd : c.isAlpha = true) : isPySpace c = false := by
  cases hs : isPySpace c
  · rfl
  · rcases pySpaceChars hs with rfl | rfl | rfl | rfl | rfl | rfl <;> simp at hd

theorem digitCharIsDigit {d : Nat} (h : d < 10) : (Nat.digitChar d).isDigit = true := by
  interval_cases d <;> decide

theorem digitCharVal {d : Nat} (h : d < 10) : (Nat.digitChar d).toNat - 48 = d := by
  interval_cases d <;> decide

theorem digitCharNotMinus {d : Nat} (h : d < 10) : Nat.digitChar d ≠ '-' := by
  interval_cases d <;> decide

theorem digitCharNotPlus {d : Nat} (h : d < 10) : Nat.digitChar d ≠ '+' := by
  interval_cases d <;> decide

theorem natToDecAuxDigits (fuel n : Nat) (h : n < fuel) :
    natToDecAux fuel n = (Nat.digits 10 n).map Nat.digitChar := by
  induction fuel generalizing n with
  | zero => omega
  | succ fuel ih =>
    unfold natToDecAux
    by_cases hn : n = 0
    · simp [hn]
    · rw [if_neg hn, Nat.digits_def' (by omega) (by omega), List.map_cons,
        ih (n / 10) (by omega)]

theorem natToDecEq (n : Nat) :
    natToDec n = if n = 0 then ['0'] else ((Nat.digits 10 n).reverse.map Nat.digitChar) := by
  unfold natToDec
  by_cases hn : n = 0
  · simp [hn]
  · rw [if_neg hn, if_neg hn, natToDecAuxDigits (n + 1) n (by omega), List.map_reverse]

theorem natToDecNeNil (n : Nat) : natToDec n ≠ [] := by
  rw [natToDecEq]
  by_cases h : n = 0
  · simp [h]
  · simp only [h, if_false]
    intro he
    rw [List.map_eq_nil_iff, List.reverse_eq_nil_iff] at he
    exact h (Nat.digits_eq_nil_iff_eq_zero.mp he)

theorem natToDecDigits (n : Nat) : ∀ c ∈ natToDec n, c.isDigit = true := by
  rw [natToDecEq]
  by_cases h : n = 0
  · simp only [h, if_true]
    intro c hc
    simp at hc
    subst hc
    decide
  · simp only [h, if_false]
    intro c hc
    rw [List.mem_map] at hc
    obtain ⟨d, hd, rfl⟩ := hc
    rw [List.mem_reverse] at hd
    exact digitCharIsDigit (Nat.digits_lt_base (by omega) hd)

theorem digitsValAuxMap (ds : List Nat) (h : ∀ d ∈ ds, d < 10) :
    ∀ acc, digitsValAux (ds.map Nat.digitChar) acc
      = some (ds.foldl (fun a d => 10 * a + d) acc) := by
  induction ds with
  | nil => intro acc; rfl
  | cons d ds ih =>
    intro acc
    have hd : d < 10 := h d (List.mem_cons_self d ds)
    simp only [List.map_cons, List.foldl_cons, digitsValAux, digitCharIsDigit hd, if_true,
      digitCharVal hd]
    exact ih (fun x hx => h x (List.mem_cons_of_mem d hx)) _

theorem foldrOfDigits (L : List Nat) :
    L.foldr (fun d a => 10 * a + d) 0 = Nat.ofDigits 10 L := by
  induction L with
  | nil => rfl
  | cons d L ih =>
    simp only [List.foldr_cons, ih, Nat.ofDigits_cons]
    omega

theorem digitsValNatToDec (n : Nat) : digitsVal (natToDec n) = some n := by
  by_cases h : n = 0
  · subst h; rfl
  · have hnil : (Nat.digits 10 n).reverse.map Nat.digitChar ≠ [] := by
      simp only [ne_eq, List.map_eq_nil_iff, List.reverse_eq_nil_iff,
        Nat.digits_eq_nil_iff_eq_zero]
      exact h
    rw [natToDecEq, if_neg h]
    rcases hm : (Nat.digits 10 n).reverse.map Nat.digitChar with _ | ⟨c, cs⟩
    · exact absurd hm hnil
    · rw [← hm]
      have hall : ∀ d ∈ (Nat.digits 10 n).reverse, d < 10 := by
        intro d hd
        rw [List.mem_reverse] at hd
        exact Nat.digits_lt_base (by omega) hd
      have : digitsVal ((Nat.digits 10 n).reverse.map Nat.digitChar)
          = digitsValAux ((Nat.digits 10 n).reverse.map Nat.digitChar) 0 := by
        rw [hm]; rfl
      rw [this, digitsValAuxMap _ hall 0, List.foldl_reverse]
      congr 1
      calc (Nat.digits 10 n).foldr (fun x y => 10 * y + x) 0
          = Nat.ofDigits 10 (Nat.digits 10 n) := foldrOfDigits _
        _ = n := Nat.ofDigits_digits 10 n

theorem dropWhileConsFalse (p : Char → Bool) (c : Char) (t : List Char) (h : p c = false) :
    (c :: t).dropWhile p = c :: t := by
  simp [List.dropWhile_cons, h]

theorem dropWhileWordFalse (p : Char → Bool) (w l : List Char) (hw : w ≠ [])
    (h : ∀ c ∈ w, p c = false) : (w ++ l).dropWhile p = w ++ l := by
  cases w with
  | nil => exact absurd rfl hw
  | cons c t =>
    exact dropWhileConsFalse p c (t ++ l) (h c (List.mem_cons_self c t))

theorem takeWhileWord (p : Char → Bool) (w : List Char) (x : Char) (l : List Char)
    (hword : ∀ c ∈ w, p c = true) (hx : p x = false) :
    (w ++ x :: l).takeWhile p = w := by
  induction w with
  | nil => simp [List.takeWhile_cons, hx]
  | cons c t ih =>
    simp only [List.cons_append, List.takeWhile_cons, hword c (List.mem_cons_self c t), if_true]
    rw [ih (fun d hd => hword d (List.mem_cons_of_mem c hd))]

theorem dropWhileWord (p : Char → Bool) (w : List Char) (x : Char) (l : List Char)
    (hword : ∀ c ∈ w, p c = true) (hx : p x = false) :
    (w ++ x :: l).dropWhile p = x :: l := by
  induction w with
  | nil => simp [List.dropWhile_cons, hx]
  | cons c t ih =>
    simp only [List.cons_append, List.dropWhile_cons, hword c (List.mem_cons_self c t), if_true]
    exact ih (fun d hd => hword d (List.mem_cons_of_mem c hd))

theorem pyIntDigitWord (w : List Char) (hw : w ≠ []) (hd : ∀ c ∈ w, c.isDigit = true)
    (n : Nat) (hval : digitsVal w = some n) : pyInt w = some (n : Int) := by
  have hnos : ∀ c ∈ w, isPySpace c = false := fun c hc => digitNotSpace (hd c hc)
  have hdw : w.dropWhile isPySpace = w := by
    cases w with
    | nil => rfl
    | cons c t => exact dropWhileConsFalse _ c t (hnos c (List.mem_cons_self c t))
  have hrv : w.reverse.dropWhile isPySpace = w.reverse := by
    cases hr : w.reverse with
    | nil => rfl
    | cons c t =>
      apply dropWhileConsFalse
      apply hnos
      rw [← List.mem_reverse, hr]
      exact List.mem_cons_self c t
  have hstrip : stripPyWs w = w := by
    unfold stripPyWs rstripBy
    rw [hdw, hrv, List.reverse_reverse]
  unfold pyInt
  rw [hstrip]
  cases w with
  | nil => exact absurd rfl hw
  | cons c t =>
    have hc : c.isDigit = true := hd c (List.mem_cons_self c t)
    have h1 : ¬ c = '-' := by
      intro he
      rw [he] at hc
      exact absurd hc (by decide)
    have h2 : ¬ c = '+' := by
      intro he
      rw [he] at hc
      exact absurd hc (by decide)
    simp only [if_neg h1, if_neg h2, hval]
    rfl



theorem rsplitWsAuxSpace (rev : List Char) (n : Nat) (acc : List (List Char)) :
    rsplitWsAux (' ' :: rev) n acc = rsplitWsAux rev n acc := by
  have h : isPySpace ' ' = true := by decide
  cases n with
  | zero => unfold rsplitWsAux; rw [List.dropWhile_cons, if_pos h]
  | succ n => unfold rsplitWsAux; rw [List.dropWhile_cons, if_pos h]

theorem rsplitWsAuxWord (w rest : List Char) (n : Nat) (acc : List (List Char))
    (hw : w ≠ []) (hww : ∀ x ∈ w, isPySpace x = false) :
    rsplitWsAux (w.reverse ++ ' ' :: rest) (n + 1) acc
      = rsplitWsAux (' ' :: rest) n (w :: acc) := by
  have hwwr : ∀ x ∈ w.reverse, isPySpace x = false := fun x hx => hww x (List.mem_reverse.mp hx)
  have hnb : ∀ x ∈ w.reverse, (fun c => !isPySpace c) x = true := by
    intro x hx
    simp [hwwr x hx]
  have hsp : (fun c => !isPySpace c) ' ' = false := by decide
  have hdw : (w.reverse ++ ' ' :: rest).dropWhile isPySpace = w.reverse ++ ' ' :: rest := by
    rcases hrv : w.reverse with _ | ⟨x, xs⟩
    · exact absurd (by simpa using hrv) hw
    · have hx : isPySpace x = false := hwwr x (by rw [hrv]; exact List.mem_cons_self x xs)
      exact dropWhileConsFalse _ _ _ hx
  have hemp : (w.reverse ++ ' ' :: rest).isEmpty = false := by
    apply isEmptyFalse
    simp
  conv_lhs => rw [rsplitWsAux]
  simp only [hdw, hemp, Bool.false_eq_true, if_false]
  rw [takeWhileWord _ _ _ _ hnb hsp, dropWhileWord _ _ _ _ hnb hsp, List.reverse_reverse]

theorem rsplitWsAuxLast (a : List Char) (acc : List (List Char)) (ha : a ≠ [])
    (halast : ∀ x, a.getLast? = some x → isPySpace x = false) :
    rsplitWsAux a.reverse 0 acc = a :: acc := by
  have hdw : a.reverse.dropWhile isPySpace = a.reverse := by
    rcases hrv : a.reverse with _ | ⟨x, xs⟩
    · exact absurd (by simpa using hrv) ha
    · have hx : isPySpace x = false := by
        apply halast
        rw [← List.head?_reverse, hrv]
        rfl
      exact dropWhileConsFalse _ _ _ hx
  have hemp : a.reverse.isEmpty = false := by
    apply isEmptyFalse
    simpa using ha
  conv_lhs => rw [rsplitWsAux]
  simp only [hdw, hemp, Bool.false_eq_true, if_false, List.reverse_reverse]


theorem rsplitFour (a b c d : List Char)
    (ha : a ≠ []) (halast : ∀ x, a.getLast? = some x → isPySpace x = false)
    (hb : b ≠ []) (hbw : ∀ x ∈ b, isPySpace x = false)
    (hc : c ≠ []) (hcw : ∀ x ∈ c, isPySpace x = false)
    (hd : d ≠ []) (hdw : ∀ x ∈ d, isPySpace x = false) :
    pyRsplitWs (a ++ ' ' :: (b ++ ' ' :: (c ++ ' ' :: d))) 3 = [a, b, c, d] := by
  unfold pyRsplitWs
  have hrev : (a ++ ' ' :: (b ++ ' ' :: (c ++ ' ' :: d))).reverse
      = d.reverse ++ ' ' :: (c.reverse ++ ' ' :: (b.reverse ++ ' ' :: a.reverse)) := by
    simp [List.reverse_append, List.reverse_cons, List.append_assoc]
  rw [hrev, rsplitWsAuxWord d _ 2 [] hd hdw, rsplitWsAuxSpace,
    rsplitWsAuxWord c _ 1 [d] hc hcw, rsplitWsAuxSpace,
    rsplitWsAuxWord b _ 0 [c, d] hb hbw, rsplitWsAuxSpace,
    rsplitWsAuxLast a [b, c, d] ha halast]

/-- C7 counterexample: for the tuple `("a ", "b", 1, 2)` — a path that
contains a space, an alphanumeric identity — saving then loading does not
return the path: the trailing space of the path is eaten by the
whitespace right-split, so load returns `"a"`. -/
theorem checkpoint_roundtrip_counterexample :
    loadProgress (makeProgressString (("a ").toList) (['b']) 1 2)
      = some (['a'], ['b'], 1, 2) ∧ ("a ").toList ≠ ['a'] := by
  constructor
  · rfl
  · decide

/-- C7 amended: for any path that is nonempty and does not end in
whitespace (spaces elsewhere allowed), any nonempty identity of letters
and digits, and any position and size, saving the checkpoint string and
loading it back returns exactly the tuple, positions parsed as integers. -/
theorem checkpoint_roundtrip (path ident : List Char) (pos size : Nat)
    (hpath : path ≠ [])
    (hlast : ∀ x, path.getLast? = some x → isPySpace x = false)
    (hident : ident ≠ [])
    (hidc : ∀ x ∈ ident, x.isAlpha = true ∨ x.isDigit = true) :
    loadProgress (makeProgressString path ident pos size)
      = some (path, ident, (pos : Int), (size : Int)) := by
  have hiw : ∀ x ∈ ident, isPySpace x = false := by
    intro x hx
    rcases hidc x hx with h | h
    · exact alphaNotSpace h
    · exact digitNotSpace h
  have hposw : ∀ x ∈ natToDec pos, isPySpace x = false := fun x hx =>
    digitNotSpace (natToDecDigits pos x hx)
  have hsizew : ∀ x ∈ natToDec size, isPySpace x = false := fun x hx =>
    digitNotSpace (natToDecDigits size x hx)
  unfold loadProgress makeProgressString
  rw [rsplitFour path ident (natToDec pos) (natToDec size) hpath hlast hident hiw
    (natToDecNeNil pos) hposw (natToDecNeNil size) hsizew]
  simp only [pyIntDigitWord (natToDec pos) (natToDecNeNil pos) (natToDecDigits pos) pos
      (digitsValNatToDec pos),
    pyIntDigitWord (natToDec size) (natToDecNeNil size) (natToDecDigits size) size
      (digitsValNatToDec size)]

/-- Witness for C7: the round-trip at the concrete tuple
`("log with spaces.log", "123g456", 50, 75)`. -/
theorem checkpoint_roundtrip_witness :
    loadProgress (makeProgressString (("log with spaces.log").toList)
        (("123g456").toList) 50 75)
      = some ((("log with spaces.log").toList), ("123g456").toList, 50, 75) :=
  checkpoint_roundtrip _ _ _ _ (by decide) (by decide) (by decide) (by decide)



/-! ### C1: the ordered aggregator's merge -/

theorem runOrderedAggAdds (adds : List EntryKey) (ops : List AggOp) (st : OrderedAggregator) :
    runOrderedAgg (adds.map AggOp.add ++ ops) st
      = runOrderedAgg ops (adds.foldl orderedAggAdd st) := by
  induction adds generalizing st with
  | nil => rfl
  | cons e adds ih =>
    simp only [List.map_cons, List.cons_append, runOrderedAgg, List.foldl_cons]
    exact ih (orderedAggAdd st e)

theorem foldAddSorted (adds : List EntryKey) (st : OrderedAggregator)
    (h : st.entries.Sorted keyLe) :
    ((adds.foldl orderedAggAdd st).entries).Sorted keyLe := by
  induction adds generalizing st with
  | nil => exact h
  | cons e adds ih =>
    exact ih (orderedAggAdd st e) (h.orderedInsert e st.entries)

theorem runDrains (m : Nat) (st : OrderedAggregator) :
    (runOrderedAgg (List.replicate m AggOp.drain) st).2 = st.entries.take m := by
  induction m generalizing st with
  | zero => simp [runOrderedAgg]
  | succ m ih =>
    rw [List.replicate_succ]
    rcases st with ⟨entries, opens⟩
    cases entries with
    | nil =>
      simp only [runOrderedAgg, orderedAggPop, ih, List.take_nil, Option.toList_none,
        List.nil_append]
    | cons e rest =>
      simp only [runOrderedAgg, orderedAggPop, ih, List.take_succ_cons, Option.toList_some,
        List.singleton_append]

/-- C1 amended: the heap pops in key order, so when no `add` is interleaved
between the drain steps — every add precedes every pop attempt — the drained
sequence is non-decreasing in the `(timestamp_text, reader_id, entry_index)`
key, with no per-reader assumption needed. -/
theorem ordered_merge_amended (n m : Nat) (adds : List EntryKey) :
    ((runOrderedAgg (adds.map AggOp.add ++ List.replicate m AggOp.drain)
        (orderedAggInit n)).2).Chain' keyLe := by
  rw [runOrderedAggAdds, runDrains]
  apply List.Pairwise.chain'
  apply List.Pairwise.sublist (List.take_sublist _ _)
  exact foldAddSorted adds (orderedAggInit n) (List.sorted_nil)

/-- C1 counterexample: reader 0 adds its (sole) entry with timestamp
00:00:05, a drain step pops it, then reader 1 adds an entry with timestamp
00:00:03 and a drain step pops that one; each reader's own input is
trivially non-decreasing, yet the drained sequence decreases. -/
theorem ordered_merge_counterexample : ¬ orderedMergeClaim := by
  intro h
  have hmono : ∀ r : Nat,
      (addsOf r [AggOp.add ⟨("2000-01-01 00:00:05,000").toList, 0, 0⟩, AggOp.drain,
        AggOp.add ⟨("2000-01-01 00:00:03,000").toList, 1, 0⟩, AggOp.drain]).Chain' keyLe := by
    intro r
    unfold addsOf
    by_cases h0 : 0 = r
    · by_cases h1 : 1 = r
      · exfalso
        omega
      · simp [List.filterMap, h0, h1]
    · by_cases h1 : 1 = r
      · simp [List.filterMap, h0, h1]
      · simp [List.filterMap, h0, h1]
  have hrun := h 2 _ hmono
  have hval : (runOrderedAgg [AggOp.add ⟨("2000-01-01 00:00:05,000").toList, 0, 0⟩, AggOp.drain,
        AggOp.add ⟨("2000-01-01 00:00:03,000").toList, 1, 0⟩, AggOp.drain]
      (orderedAggInit 2)).2
      = [⟨("2000-01-01 00:00:05,000").toList, 0, 0⟩,
         ⟨("2000-01-01 00:00:03,000").toList, 1, 0⟩] := by rfl
  rw [hval] at hrun
  have : ¬ keyLe ⟨("2000-01-01 00:00:05,000").toList, 0, 0⟩
      ⟨("2000-01-01 00:00:03,000").toList, 1, 0⟩ := by decide
  exact this (List.chain'_cons.mp hrun).1


/-! ### C4: message concatenation -/

theorem takeLineAppend (body rest : List Char) (h : '\n' ∉ body) :
    takeLine (body ++ '\n' :: rest) = body ++ ['\n'] := by
  induction body with
  | nil => simp [takeLine]
  | cons c cs ih =>
    have hc : ¬ c = '\n' := fun he => h (he ▸ List.mem_cons_self c cs)
    simp only [List.cons_append, takeLine, if_neg hc, List.append_eq]
    rw [ih (fun hm => h (List.mem_cons_of_mem c hm))]

theorem flattenLinesLength (conts : List (List Char)) :
    conts.length ≤ ((conts.map (fun b => b ++ ['\n'])).flatten).length := by
  induction conts with
  | nil => simp
  | cons b conts ih =>
    simp only [List.map_cons, List.flatten_cons, List.length_append, List.length_cons]
    omega

theorem readMessageAuxSpec (file : List Char) (conts : List (List Char)) (trail : List Char) :
    ∀ (fuel pos : Nat) (acc : List Char),
      conts.length < fuel →
      file.drop pos = (conts.map (fun b => b ++ ['\n'])).flatten ++ trail →
      (∀ b ∈ conts, '\n' ∉ b) →
      (∀ b ∈ conts, isContinuationLine (b ++ ['\n']) = true) →
      isContinuationLine (takeLine trail) = false →
      readMessageAux file fuel pos acc
        = (rstripBy isPySpace (acc ++ (conts.map (fun b => b ++ ['\n'])).flatten),
           pos + ((conts.map (fun b => b ++ ['\n'])).flatten).length) := by
  induction conts with
  | nil =>
    intro fuel pos acc hfuel hdrop _ _ hterm
    simp only [List.map_nil, List.flatten_nil, List.nil_append] at hdrop
    cases fuel with
    | zero => omega
    | succ fuel =>
      simp only [readMessageAux, readLine, hdrop, hterm, Bool.false_eq_true, if_false,
        List.map_nil, List.flatten_nil, List.append_nil, List.length_nil, Nat.add_zero]
  | cons b conts ih =>
    intro fuel pos acc hfuel hdrop hb hcont hterm
    simp only [List.map_cons, List.flatten_cons, List.length_cons] at hdrop hfuel ⊢
    have hbm : '\n' ∉ b := hb b (List.mem_cons_self b conts)
    have hshape : file.drop pos
        = b ++ '\n' :: ((conts.map (fun b => b ++ ['\n'])).flatten ++ trail) := by
      rw [hdrop]
      simp
    have hline : readLine file pos = b ++ ['\n'] := by
      unfold readLine
      rw [hshape]
      exact takeLineAppend b _ hbm
    have hlen : (readLine file pos).length = b.length + 1 := by
      rw [hline]
      simp
    have hdrop2 : file.drop (pos + (b.length + 1))
        = (conts.map (fun b => b ++ ['\n'])).flatten ++ trail := by
      have h2 := congrArg (List.drop (b.length + 1)) hshape
      rw [List.drop_drop] at h2
      rw [h2,
        show b ++ '\n' :: ((conts.map (fun b => b ++ ['\n'])).flatten ++ trail)
          = (b ++ ['\n']) ++ ((conts.map (fun b => b ++ ['\n'])).flatten ++ trail) by simp,
        show b.length + 1 = (b ++ ['\n']).length by simp, List.drop_left]
    cases fuel with
    | zero => omega
    | succ fuel =>
      have hcb : isContinuationLine (readLine file pos) = true := by
        rw [hline]
        exact hcont b (List.mem_cons_self b conts)
      conv_lhs => rw [readMessageAux]
      simp only [hcb, if_true, hline, hlen]
      rw [show pos + (b ++ ['\n']).length = pos + (b.length + 1) by simp]
      rw [ih fuel (pos + (b.length + 1)) (acc ++ (b ++ ['\n'])) (by omega) hdrop2
        (fun x hx => hb x (List.mem_cons_of_mem b hx))
        (fun x hx => hcont x (List.mem_cons_of_mem b hx)) hterm]
      have hcb2 : isContinuationLine (b ++ ['\n']) = true :=
        hcont b (List.mem_cons_self b conts)
      rw [if_pos hcb2]
      simp only [Prod.mk.injEq]
      refine ⟨congrArg _ (by simp [List.append_assoc]), ?_⟩
      simp only [List.length_append, List.length_cons, List.length_nil]
      omega


/-- C4: for a record whose message column is followed by `k` continuation
lines and then either end-of-file or a non-continuation (header) line, the
message is the concatenation of the column and the raw continuation lines
with trailing whitespace stripped, and the stream is left exactly at the
start of the terminating line (each continuation line consumed once, the
terminator not consumed). -/
theorem read_message_concatenation (msgCol file : List Char) (pos : Nat)
    (conts : List (List Char)) (trail : List Char)
    (hdrop : file.drop pos = (conts.map (fun b => b ++ ['\n'])).flatten ++ trail)
    (hb : ∀ b ∈ conts, '\n' ∉ b)
    (hcont : ∀ b ∈ conts, isContinuationLine (b ++ ['\n']) = true)
    (hterm : isContinuationLine (takeLine trail) = false) :
    readMessage msgCol file pos
      = (rstripBy isPySpace (msgCol ++ (conts.map (fun b => b ++ ['\n'])).flatten),
         pos + ((conts.map (fun b => b ++ ['\n'])).flatten).length) := by
  unfold readMessage
  apply readMessageAuxSpec file conts trail (file.length + 1) pos msgCol ?_ hdrop hb hcont hterm
  have h1 := flattenLinesLength conts
  have h2 : ((conts.map (fun b => b ++ ['\n'])).flatten).length ≤ (file.drop pos).length := by
    rw [hdrop]
    simp
  have h3 : (file.drop pos).length ≤ file.length := by
    simp
  omega

/-- Witness for C4: the multiline sample — message column `"Error!\n"`, one
continuation line, then a header line that is not consumed. -/
theorem read_message_concatenation_witness :
    readMessage (("Error!\n").toList)
        (("  at D.n(D.java:42)\n2000-01-01 00:00:01,000 F").toList) 0
      = (rstripBy isPySpace ((("Error!\n").toList)
            ++ (([("  at D.n(D.java:42)").toList].map (fun b => b ++ ['\n'])).flatten)),
         0 + (([("  at D.n(D.java:42)").toList].map (fun b => b ++ ['\n'])).flatten).length) :=
  read_message_concatenation (("Error!\n").toList) _ 0 [("  at D.n(D.java:42)").toList]
    (("2000-01-01 00:00:01,000 F").toList) (by decide) (by decide) (by decide) (by decide)


/-! ### C9: the per-reader entry index -/

theorem readAuxIdx (cfg : ParserConfig) (fid : Nat) (file : List Char) :
    ∀ (fuel pos i : Nat),
      ((readAux cfg fid file fuel pos i).1).map (fun e => e.i)
        = List.range' i ((readAux cfg fid file fuel pos i).1).length := by
  intro fuel
  induction fuel with
  | zero => intro pos i; rfl
  | succ fuel ih =>
    intro pos i
    simp only [readAux]
    by_cases h1 : (readLine file pos).isEmpty
    · simp [h1]
    · simp only [h1, Bool.false_eq_true, if_false]
      by_cases h2 : pyStartswith ((readLine file pos).take 23) ['2', '0']
      · simp only [h2, Bool.not_true, Bool.false_eq_true, if_false]
        by_cases h3 : (pySplitCh cfg.delimiter (cfg.columnCount - 1)
            (pySliceFrom (readLine file pos) 24)).length < cfg.columnCount
        · simp only [if_pos h3]
          exact ih _ i
        · simp only [if_neg h3, List.map_cons, List.length_cons, List.range'_succ]
          rw [ih _ (i + 1)]
      · simp only [h2, Bool.not_false, if_true]
        exact ih _ i

/-- C9 amended: within a single invocation of the parser's read generator
the emitted entry indices are exactly `0, 1, 2, …` — strictly increasing —
but the counter is local to the invocation: each new invocation of `read`
(as the follow-mode reader loop performs after every end-of-file) restarts
the numbering at 0, so the indices are not monotonic across invocations. -/
theorem entry_index_within_read (cfg : ParserConfig) (fid : Nat) (file : List Char)
    (pos : Nat) :
    ((readEntries cfg fid file pos).1).map (fun e => e.i)
      = List.range ((readEntries cfg fid file pos).1).length := by
  unfold readEntries
  rw [readAuxIdx, List.range_eq_range']

/-- C9 counterexample: a follow-mode reader that reads one entry, reaches
end of file, and reads one more entry in the next invocation delivers the
entry indices 0, 0 — not strictly increasing across the lifetime. -/
theorem entry_index_reset_counterexample :
    (followDelivered defaultConfig {} 0
        [("2000-01-01 00:00:00,000 F E T C.m(C.java:1): a\n").toList,
         (("2000-01-01 00:00:00,000 F E T C.m(C.java:1): a\n").toList
           ++ ("2000-01-01 00:00:01,000 F E T C.m(C.java:1): b\n").toList)] 0).map
      (fun e => e.i) = [0, 0] ∧
    ¬ List.Chain' (· < ·) ([0, 0] : List Nat) := by
  constructor
  · rfl
  · intro h
    exact absurd (List.chain'_cons.mp h).1 (lt_irrefl 0)


/-! ### C6: header/continuation classification versus what read accepts -/

theorem readAuxAtEnd (cfg : ParserConfig) (fid : Nat) (file : List Char) (fuel pos i : Nat)
    (h : file.length ≤ pos) : readAux cfg fid file fuel pos i = ([], pos) := by
  cases fuel with
  | zero => rfl
  | succ fuel =>
    have hl : readLine file pos = [] := by
      unfold readLine
      rw [List.drop_eq_nil_of_le h]
      rfl
    simp [readAux, hl, takeLine]

/-- C6 counterexample: a line whose byte 23 is `'X'`, not a space, is
classified as a continuation line, yet `Log4jParser.read` — which tests
only `line[:23].startswith('20')` — accepts it and emits a record for it. -/
theorem header_classification_counterexample :
    isContinuationLine
        (("2000-01-01 00:00:00,000X FlowID ERROR Thread C.m(C.java:23): msg\n").toList)
      = true ∧
    ((readEntries defaultConfig 0
        (("2000-01-01 00:00:00,000X FlowID ERROR Thread C.m(C.java:23): msg\n").toList)
        0).1).length = 1 := by
  constructor <;> rfl

/-- C6 amended: a line is classified as a header (non-continuation) exactly
when it starts with "20" and has a single space at index 23; but
`Log4jParser.read` accepts a line as a record header exactly when its first
23 bytes start with "20" — without checking byte 23 — and emits an entry
for it exactly when the line additionally splits into enough columns. -/
theorem header_classification_amended :
    (∀ l : List Char, (l ≠ [] ∧ isContinuationLine l = false)
        ↔ (pyStartswith l ['2', '0'] = true ∧ l[23]? = some ' ')) ∧
    (∀ l : List Char, '\n' ∉ l →
      (((readEntries defaultConfig 0 (l ++ ['\n']) 0).1) ≠ []
        ↔ (pyStartswith ((l ++ ['\n']).take 23) ['2', '0'] = true ∧
           defaultConfig.columnCount
             ≤ (pySplitCh defaultConfig.delimiter (defaultConfig.columnCount - 1)
                 (pySliceFrom (l ++ ['\n']) 24)).length))) := by
  constructor
  · intro l
    constructor
    · rintro ⟨hne, hcont⟩
      simpa [isContinuationLine, isEmptyFalse hne] using hcont
    · rintro ⟨h1, h2⟩
      have hne : l ≠ [] := by
        intro he
        subst he
        simp at h2
      exact ⟨hne, by simp [isContinuationLine, isEmptyFalse hne, h1, h2]⟩
  · intro l hnl
    have hline : readLine (l ++ ['\n']) 0 = l ++ ['\n'] := by
      unfold readLine
      rw [List.drop_zero]
      have := takeLineAppend l [] hnl
      simpa using this
    have hlemp : (l ++ ['\n']).isEmpty = false := isEmptyFalse (by simp)
    have hfuel : (l ++ ['\n']).length + 1 = l.length + 1 + 1 := by simp
    by_cases hA : pyStartswith ((l ++ ['\n']).take 23) ['2', '0'] = true
    · by_cases hB : defaultConfig.columnCount
          ≤ (pySplitCh defaultConfig.delimiter (defaultConfig.columnCount - 1)
              (pySliceFrom (l ++ ['\n']) 24)).length
      · apply iff_of_true ?_ ⟨hA, hB⟩
        unfold readEntries
        rw [hfuel]
        simp only [readAux, hline, hlemp, Bool.false_eq_true, if_false, hA, Bool.not_true,
          if_neg (by omega : ¬ (pySplitCh defaultConfig.delimiter
            (defaultConfig.columnCount - 1) (pySliceFrom (l ++ ['\n']) 24)).length
              < defaultConfig.columnCount)]
        simp
      · have hline2 : readLine (l ++ ['\n']) (l.length + 1) = [] := by
          unfold readLine
          rw [show l.length + 1 = (l ++ ['\n']).length by simp, List.drop_length]
          rfl
        apply iff_of_false ?_ (fun h => hB h.2)
        unfold readEntries
        rw [hfuel]
        simp [readAux, hline, hlemp, hA, hline2,
          if_pos (by omega : (pySplitCh defaultConfig.delimiter
            (defaultConfig.columnCount - 1) (pySliceFrom (l ++ ['\n']) 24)).length
              < defaultConfig.columnCount)]
    · have hline2 : readLine (l ++ ['\n']) (l.length + 1) = [] := by
        unfold readLine
        rw [show l.length + 1 = (l ++ ['\n']).length by simp, List.drop_length]
        rfl
      have hA' : pyStartswith ((l ++ ['\n']).take 23) ['2', '0'] = false := by
        revert hA
        cases pyStartswith ((l ++ ['\n']).take 23) ['2', '0'] <;> simp
      apply iff_of_false ?_ (fun h => hA h.1)
      unfold readEntries
      rw [hfuel]
      simp [readAux, hline, hlemp, hA', hline2]

/-- Witness for C6's amended theorem, at the full five-column sample line:
classified header, accepted, and emitting one entry. -/
theorem header_classification_amended_witness :
    ('\n' ∉ (("2000-01-01 00:00:00,000 FlowID ERROR Thread C.m(C.java:23): Error!").toList)) ∧
    (((readEntries defaultConfig 0
        ((("2000-01-01 00:00:00,000 FlowID ERROR Thread C.m(C.java:23): Error!").toList)
          ++ ['\n']) 0).1) ≠ []
      ↔ (pyStartswith (((("2000-01-01 00:00:00,000 FlowID ERROR Thread C.m(C.java:23): Error!").toList)
            ++ ['\n']).take 23) ['2', '0'] = true ∧
         defaultConfig.columnCount
           ≤ (pySplitCh defaultConfig.delimiter (defaultConfig.columnCount - 1)
               (pySliceFrom ((("2000-01-01 00:00:00,000 FlowID ERROR Thread C.m(C.java:23): Error!").toList)
                 ++ ['\n']) 24)).length)) :=
  ⟨by decide, (header_classification_amended.2
    (("2000-01-01 00:00:00,000 FlowID ERROR Thread C.m(C.java:23): Error!").toList)
    (by decide))⟩

/-! ### C2: groundwork on segments, slices and rfind -/

theorem joinNlCons (s : List Char) (ss : List (List Char)) (h : ss ≠ []) :
    joinNl (s :: ss) = s ++ '\n' :: joinNl ss := by
  cases ss with
  | nil => exact absurd rfl h
  | cons t rest => rfl

theorem joinNlSnoc (ss : List (List Char)) (y : List Char) (h : ss ≠ []) :
    joinNl (ss ++ [y]) = joinNl ss ++ '\n' :: y := by
  induction ss with
  | nil => exact absurd rfl h
  | cons x rest ih =>
    cases rest with
    | nil => rfl
    | cons r rest2 =>
      rw [List.cons_append, joinNlCons x ((r :: rest2) ++ [y]) (by simp), ih (by simp),
        joinNlCons x (r :: rest2) (by simp)]
      simp

theorem segLenSumAppend (xs ys : List (List Char)) :
    segLenSum (xs ++ ys) = segLenSum xs + segLenSum ys := by
  simp [segLenSum]

theorem segLenSumReverse (ss : List (List Char)) :
    segLenSum ss.reverse = segLenSum ss := by
  simp [segLenSum, List.sum_reverse]

theorem segLenSumJoin (ss : List (List Char)) (h : ss ≠ []) :
    segLenSum ss = (joinNl ss).length + 1 := by
  induction ss with
  | nil => exact absurd rfl h
  | cons x rest ih =>
    cases rest with
    | nil => simp [segLenSum, joinNl]
    | cons r rest2 =>
      rw [joinNlCons _ _ (by simp)]
      have h2 := ih (by simp)
      simp [segLenSum] at h2 ⊢
      omega

theorem segLenSumGeLen (ss : List (List Char)) : ss.length ≤ segLenSum ss := by
  induction ss with
  | nil => simp [segLenSum]
  | cons x rest ih =>
    simp [segLenSum] at ih ⊢
    omega

theorem fileOfLinesCons (x : List Char) (rest : List (List Char)) :
    fileOfLines (x :: rest) = x ++ '\n' :: fileOfLines rest := by
  simp [fileOfLines]

theorem fileOfLinesLength (ls : List (List Char)) :
    (fileOfLines ls).length = segLenSum ls := by
  induction ls with
  | nil => rfl
  | cons x rest ih =>
    rw [fileOfLinesCons]
    simp [segLenSum] at ih ⊢
    omega

theorem fileOfLinesJoin (ls : List (List Char)) (h : ls ≠ []) :
    fileOfLines ls = joinNl ls ++ ['\n'] := by
  induction ls with
  | nil => exact absurd rfl h
  | cons x rest ih =>
    cases rest with
    | nil => simp [fileOfLines, joinNl]
    | cons r rest2 =>
      rw [fileOfLinesCons, ih (by simp), joinNlCons x (r :: rest2) (by simp)]
      simp

theorem lineStartTake (ls : List (List Char)) (j : Nat) :
    lineStart ls j = segLenSum (ls.take j) := rfl

theorem lineStartCons (x : List Char) (rest : List (List Char)) (j : Nat) :
    lineStart (x :: rest) (j + 1) = x.length + 1 + lineStart rest j := by
  simp [lineStart]

theorem lineStartSucc (ls : List (List Char)) (j : Nat) (l : List Char)
    (h : ls[j]? = some l) :
    lineStart ls (j + 1) = lineStart ls j + (l.length + 1) := by
  have ht : ls.take (j + 1) = ls.take j ++ [l] := by
    rw [List.take_succ, h]
    rfl
  rw [lineStartTake, lineStartTake, ht, segLenSumAppend]
  simp [segLenSum]

theorem lineStartPrefix (xs ys : List (List Char)) (j : Nat) (h : j ≤ xs.length) :
    lineStart (xs ++ ys) j = lineStart xs j := by
  rw [lineStartTake, lineStartTake, List.take_append_of_le_length h]

theorem fileDropLineStart (ls : List (List Char)) (j : Nat) (a b : List Char)
    (h : ls[j]? = some (a ++ b)) :
    (fileOfLines ls).drop (lineStart ls j + a.length)
      = b ++ '\n' :: fileOfLines (ls.drop (j + 1)) := by
  induction ls generalizing j with
  | nil => simp at h
  | cons x rest ih =>
    cases j with
    | zero =>
      simp at h
      subst h
      rw [fileOfLinesCons]
      have h0 : lineStart ((a ++ b) :: rest) 0 + a.length = a.length := by
        simp [lineStart]
      rw [h0, List.append_assoc, List.drop_left]
      simp
    | succ j =>
      simp only [List.getElem?_cons_succ] at h
      rw [fileOfLinesCons, lineStartCons]
      rw [show x ++ '\n' :: fileOfLines rest = (x ++ ['\n']) ++ fileOfLines rest by simp]
      rw [show x.length + 1 + lineStart rest j + a.length
          = (x ++ ['\n']).length + (lineStart rest j + a.length) by simp; omega]
      rw [List.drop_append]
      simpa using ih j h

theorem lineIdxOf (ls : List (List Char)) (p : Nat) (h : p < segLenSum ls) :
    ∃ j a b, ls[j]? = some (a ++ b) ∧ lineStart ls j + a.length = p := by
  induction ls generalizing p with
  | nil => simp [segLenSum] at h
  | cons x rest ih =>
    by_cases hp : p ≤ x.length
    · refine ⟨0, x.take p, x.drop p, by simp, ?_⟩
      simp [lineStart, Nat.min_eq_left hp]
    · have hp2 : p - (x.length + 1) < segLenSum rest := by
        simp [segLenSum] at h ⊢
        omega
      obtain ⟨j, a, b, h1, h2⟩ := ih (p - (x.length + 1)) hp2
      refine ⟨j + 1, a, b, by simpa using h1, ?_⟩
      rw [lineStartCons]
      omega

theorem takeRegion (b y : List Char) (mid rest : List (List Char)) :
    (b ++ '\n' :: fileOfLines (mid ++ y :: rest)).take
        (b.length + (1 + (segLenSum mid + y.length)))
      = joinNl (b :: (mid ++ [y])) := by
  induction mid generalizing b with
  | nil =>
    simp only [List.nil_append]
    rw [fileOfLinesCons, joinNlCons _ _ (by simp)]
    show _ = b ++ '\n' :: joinNl [y]
    rw [show joinNl [y] = y from rfl]
    rw [show b.length + (1 + (segLenSum [] + y.length)) = b.length + (1 + y.length) by
      simp [segLenSum]]
    rw [List.take_append_eq_append_take, List.take_of_length_le (by omega)]
    congr 1
    rw [show b.length + (1 + y.length) - b.length = 1 + y.length by omega]
    rw [show (1 + y.length) = (('\n' :: y).length) by simp; omega]
    rw [show '\n' :: (y ++ '\n' :: fileOfLines rest) = ('\n' :: y) ++ '\n' :: fileOfLines rest by simp]
    exact List.take_left _ _
  | cons m mid2 ih =>
    rw [List.cons_append, fileOfLinesCons, joinNlCons _ _ (by simp)]
    have harith : b.length + (1 + (segLenSum (m :: mid2) + y.length))
        = b.length + 1 + (m.length + (1 + (segLenSum mid2 + y.length))) := by
      simp [segLenSum]
      omega
    rw [harith]
    rw [show b ++ '\n' :: (m ++ '\n' :: fileOfLines (mid2 ++ y :: rest))
        = (b ++ ['\n']) ++ (m ++ '\n' :: fileOfLines (mid2 ++ y :: rest)) by simp]
    rw [show b.length + 1 + (m.length + (1 + (segLenSum mid2 + y.length)))
        = (b ++ ['\n']).length + (m.length + (1 + (segLenSum mid2 + y.length))) by simp]
    rw [List.take_append, ih m]
    simp [joinNlCons m (mid2 ++ [y]) (by simp)]

theorem memOfGetElem : ∀ {s : List Char} {k : Nat} {c : Char}, s[k]? = some c → c ∈ s := by
  intro s
  induction s with
  | nil =>
    intro k c h
    simp at h
  | cons a t ih =>
    intro k c h
    cases k with
    | zero =>
      simp at h
      simp [h]
    | succ k =>
      simp only [List.getElem?_cons_succ] at h
      exact List.mem_cons_of_mem _ (ih h)

theorem pyRfindAuxNotMem (s : List Char) (c : Char) (h : c ∉ s) (k : Nat) :
    pyRfindAux s c k = none := by
  induction k with
  | zero => rfl
  | succ k ih =>
    unfold pyRfindAux
    rw [if_neg, ih]
    intro hc
    exact h (memOfGetElem hc)

theorem pyRfindNotMem (s : List Char) (c : Char) (e : Option Int) (h : c ∉ s) :
    pyRfind s c e = -1 := by
  unfold pyRfind
  rw [pyRfindAuxNotMem s c h]

theorem pyRfindAuxLastOcc (A t : List Char) (c : Char) (ht : c ∉ t) (k : Nat)
    (hk : A.length < k) :
    pyRfindAux (A ++ c :: t) c k = some A.length := by
  induction k with
  | zero => omega
  | succ k ih =>
    unfold pyRfindAux
    by_cases he : k = A.length
    · subst he
      rw [if_pos]
      rw [List.getElem?_append_right (le_refl _)]
      simp
    · have hk2 : A.length < k := by omega
      rw [if_neg, ih hk2]
      rw [List.getElem?_append_right (by omega)]
      rw [show k - A.length = (k - A.length - 1) + 1 by omega, List.getElem?_cons_succ]
      intro hc
      exact ht (memOfGetElem hc)

theorem pyRfindLastNl (A t : List Char) (ht : '\n' ∉ t) :
    pyRfind (A ++ '\n' :: t) '\n' none = (A.length : Int) := by
  unfold pyRfind pyNormEnd
  rw [pyRfindAuxLastOcc A t '\n' ht _ (by simp)]

theorem pyNormEndNone (len : Nat) : pyNormEnd len none = len := rfl

theorem pyNormEndNat (len e : Nat) : pyNormEnd len (some (e : Int)) = min e len := by
  show (if (e : Int) < 0 then ((len : Int) + (e : Int)).toNat else min ((e : Int)).toNat len)
    = min e len
  rw [if_neg (by simp), Int.toNat_natCast]

theorem pyNormStartNat (len e : Nat) : pyNormStart len (e : Int) = min e len := by
  unfold pyNormStart
  rw [if_neg (by simp), Int.toNat_natCast]

theorem pyRfindPrefix (A R : List Char) (c : Char) :
    pyRfind (A ++ R) c (some (A.length : Int)) = pyRfind A c none := by
  unfold pyRfind
  rw [pyNormEndNat, Nat.min_eq_left (by simp), pyNormEndNone,
    pyRfindAuxAppend A R c A.length le_rfl]

theorem pySliceMid (A B R : List Char) :
    pySlice (A ++ (B ++ R)) (A.length : Int) (some ((A.length + B.length : Nat) : Int)) = B := by
  unfold pySlice
  rw [pyNormEndNat, pyNormStartNat]
  rw [Nat.min_eq_left (by simp), Nat.min_eq_left (by simp)]
  rw [List.take_append_eq_append_take, List.take_of_length_le (by omega)]
  rw [show A.length + B.length - A.length = B.length by omega]
  rw [List.take_append_eq_append_take, List.take_of_length_le (le_refl _)]
  rw [show B.length - B.length = 0 by omega]
  simp [List.drop_left]

theorem pySliceFromPast (A B : List Char) :
    pySlice (A ++ B) (A.length : Int) none = B := by
  unfold pySlice
  rw [pyNormEndNone, pyNormStartNat, Nat.min_eq_left (by simp)]
  rw [List.take_of_length_le (le_refl _), List.drop_left]

theorem pySliceToAll (s : List Char) : pySliceTo s none = s := by
  unfold pySliceTo
  rw [pyNormEndNone]
  exact List.take_of_length_le (le_refl _)

theorem pySliceToPrefix (A B : List Char) :
    pySliceTo (A ++ B) (some ((A.length : Nat) : Int)) = A := by
  unfold pySliceTo
  rw [pyNormEndNat, Nat.min_eq_left (by simp)]
  exact List.take_left _ _

theorem segScanRCons (contf : List Char → Bool) (N base : Nat) (s : List Char)
    (rest : List (List Char)) (h : rest ≠ []) (count : Nat) :
    segScanR contf N base (s :: rest) count
      = if contf s then segScanR contf N base rest count
        else if N ≤ count + 1 then (some (base + segLenSum rest), count + 1)
        else segScanR contf N base rest (count + 1) := by
  cases rest with
  | nil => exact absurd rfl h
  | cons t r2 => rfl

theorem getLastDConsCons (a b : List Char) (l : List (List Char)) (d e : List Char) :
    (a :: b :: l).getLastD d = (b :: l).getLastD e := by
  rw [List.getLastD_cons, List.getLastD_cons, List.getLastD_cons]

theorem segScanRSplit (contf : List Char → Bool) (N : Nat) (ex : List (List Char)) :
    ∀ (count b1 b2 : Nat) (p : List Char) (tail2 : List (List Char)), tail2 ≠ [] →
      b1 + (p.length + 1) = b2 + segLenSum tail2 →
      ((segScanR contf N b1 (ex ++ [p]) count).1 = none →
        segScanR contf N b2 (ex ++ tail2) count
          = segScanR contf N b2 tail2 (segScanR contf N b1 (ex ++ [p]) count).2) ∧
      (∀ t, (segScanR contf N b1 (ex ++ [p]) count).1 = some t →
        (segScanR contf N b2 (ex ++ tail2) count).1 = some t) := by
  induction ex with
  | nil =>
    intro count b1 b2 p tail2 ht heq
    constructor
    · intro _
      rfl
    · intro t hsome
      exact absurd hsome (by simp [segScanR])
  | cons s ex2 ih =>
    intro count b1 b2 p tail2 ht heq
    simp only [List.cons_append]
    rw [segScanRCons contf N b1 s (ex2 ++ [p]) (by simp) count,
      segScanRCons contf N b2 s (ex2 ++ tail2) (by simp [ht]) count]
    by_cases hc : contf s = true
    · rw [if_pos hc, if_pos hc]
      exact ih count b1 b2 p tail2 ht heq
    · rw [if_neg hc, if_neg hc]
      by_cases hn : N ≤ count + 1
      · rw [if_pos hn, if_pos hn]
        constructor
        · intro hnone
          exact absurd hnone (by simp)
        · intro t hsome
          simp only at hsome ⊢
          have hsum : b1 + segLenSum (ex2 ++ [p]) = b2 + segLenSum (ex2 ++ tail2) := by
            rw [segLenSumAppend, segLenSumAppend]
            have hp : segLenSum [p] = p.length + 1 := by simp [segLenSum]
            omega
          rw [← hsum]
          exact hsome
      · rw [if_neg hn, if_neg hn]
        exact ih (count + 1) b1 b2 p tail2 ht heq

theorem seekTailWhileSpec (contf : List Char → Bool) (N base : Nat) :
    ∀ (ss : List (List Char)) (T R chunk : List Char) (pv : Option Int) (count fuel : Nat),
      ss ≠ [] → (∀ s ∈ ss, '\n' ∉ s) →
      chunk = joinNl ss.reverse ++ '\n' :: (T ++ R) →
      pySlice chunk (((joinNl ss.reverse).length : Int) + 1) pv = T →
      ss.length + 1 ≤ fuel →
      (seekTailWhileAux contf N base chunk fuel count pv
          ((joinNl ss.reverse).length : Int)).1
          = (segScanR contf N base (T :: ss) count).1 ∧
      (seekTailWhileAux contf N base chunk fuel count pv
          ((joinNl ss.reverse).length : Int)).2.1
          = (segScanR contf N base (T :: ss) count).2 ∧
      ((segScanR contf N base (T :: ss) count).1 = none →
        (seekTailWhileAux contf N base chunk fuel count pv
            ((joinNl ss.reverse).length : Int)).2.2
          = some ((ss.getLastD []).length : Int)) := by
  intro ss
  induction ss with
  | nil =>
    intro T R chunk pv count fuel hne
    exact absurd rfl hne
  | cons T2 ss2 ih =>
    intro T R chunk pv count fuel hne hfree hchunk hslice hfuel
    cases fuel with
    | zero => simp at hfuel
    | succ f =>
      have hcur : ¬ (((joinNl (T2 :: ss2).reverse).length : Int) < 0) :=
        not_lt.mpr (Int.natCast_nonneg _)
      have hrec : ∀ c2,
          (seekTailWhileAux contf N base chunk f c2
              (some ((joinNl (T2 :: ss2).reverse).length : Int))
              (pyRfind chunk '\n'
                (some ((joinNl (T2 :: ss2).reverse).length : Int)))).1
            = (segScanR contf N base (T2 :: ss2) c2).1 ∧
          (seekTailWhileAux contf N base chunk f c2
              (some ((joinNl (T2 :: ss2).reverse).length : Int))
              (pyRfind chunk '\n'
                (some ((joinNl (T2 :: ss2).reverse).length : Int)))).2.1
            = (segScanR contf N base (T2 :: ss2) c2).2 ∧
          ((segScanR contf N base (T2 :: ss2) c2).1 = none →
            (seekTailWhileAux contf N base chunk f c2
                (some ((joinNl (T2 :: ss2).reverse).length : Int))
                (pyRfind chunk '\n'
                  (some ((joinNl (T2 :: ss2).reverse).length : Int)))).2.2
              = some (((T2 :: ss2).getLastD []).length : Int)) := by
        intro c2
        cases ss2 with
        | nil =>
          have hj : joinNl ([T2].reverse) = T2 := rfl
          have hrf : pyRfind chunk '\n' (some ((joinNl ([T2].reverse)).length : Int)) = -1 := by
            rw [hj, hchunk, hj]
            rw [show T2 ++ '\n' :: (T ++ R) = T2 ++ ('\n' :: (T ++ R)) from rfl]
            rw [pyRfindPrefix T2 ('\n' :: (T ++ R)) '\n']
            exact pyRfindNotMem T2 '\n' none (hfree T2 (by simp))
          rw [hrf]
          cases f with
          | zero => simp at hfuel
          | succ f2 =>
            simp only [seekTailWhileAux]
            rw [if_pos (by norm_num)]
            refine ⟨rfl, rfl, fun _ => ?_⟩
            have hj2 : (joinNl [T2]).length = T2.length := rfl
            simp [hj, hj2]
        | cons T3 ss3 =>
          have hrev : (T2 :: T3 :: ss3).reverse = (T3 :: ss3).reverse ++ [T2] := by simp
          have hjoin : joinNl ((T2 :: T3 :: ss3).reverse)
              = joinNl ((T3 :: ss3).reverse) ++ '\n' :: T2 := by
            rw [hrev]
            exact joinNlSnoc _ _ (by simp)
          have hchunk2 : chunk = joinNl ((T3 :: ss3).reverse)
              ++ '\n' :: (T2 ++ ('\n' :: (T ++ R))) := by
            rw [hchunk, hjoin]
            simp
          have hrf : pyRfind chunk '\n'
              (some ((joinNl ((T2 :: T3 :: ss3).reverse)).length : Int))
              = ((joinNl ((T3 :: ss3).reverse)).length : Int) := by
            rw [hchunk]
            rw [show joinNl ((T2 :: T3 :: ss3).reverse) ++ '\n' :: (T ++ R)
                = joinNl ((T2 :: T3 :: ss3).reverse) ++ ('\n' :: (T ++ R)) from rfl]
            rw [pyRfindPrefix _ ('\n' :: (T ++ R)) '\n']
            rw [hjoin]
            exact pyRfindLastNl _ _ (hfree T2 (by simp))
          have hslice2 : pySlice chunk (((joinNl ((T3 :: ss3).reverse)).length : Int) + 1)
              (some ((joinNl ((T2 :: T3 :: ss3).reverse)).length : Int)) = T2 := by
            rw [hchunk2]
            rw [show joinNl ((T3 :: ss3).reverse) ++ '\n' :: (T2 ++ ('\n' :: (T ++ R)))
                = (joinNl ((T3 :: ss3).reverse) ++ ['\n']) ++ (T2 ++ ('\n' :: (T ++ R)))
              by simp]
            rw [show (joinNl ((T2 :: T3 :: ss3).reverse)).length
                = (joinNl ((T3 :: ss3).reverse) ++ ['\n']).length + T2.length by
              rw [hjoin]; simp; omega]
            rw [show (((joinNl ((T3 :: ss3).reverse)).length : Int) + 1)
                = (((joinNl ((T3 :: ss3).reverse) ++ ['\n']).length : Nat) : Int) by
              simp]
            exact pySliceMid _ T2 _
          rw [hrf]
          have hmain := ih T2 ('\n' :: (T ++ R)) chunk
            (some ((joinNl ((T2 :: T3 :: ss3).reverse)).length : Int)) c2 f
            (by simp) (fun s hs => hfree s (by simp [hs]))
            hchunk2 hslice2 (by simp at hfuel ⊢; omega)
          refine ⟨hmain.1, hmain.2.1, fun hn => ?_⟩
          rw [hmain.2.2 hn]
          rw [getLastDConsCons T2 T3 ss3 [] []]
      simp only [seekTailWhileAux]
      rw [if_neg hcur, hslice]
      rw [segScanRCons contf N base T (T2 :: ss2) (by simp) count]
      by_cases hc : contf T = true
      · rw [if_pos hc, if_pos hc]
        exact hrec count
      · rw [if_neg hc, if_neg hc]
        by_cases hn : N ≤ count + 1
        · rw [if_pos hn, if_pos hn]
          have h1 : segLenSum (ss2.reverse ++ [T2])
              = (joinNl (ss2.reverse ++ [T2])).length + 1 :=
            segLenSumJoin _ (by simp)
          have h2 : segLenSum (ss2.reverse ++ [T2]) = segLenSum (T2 :: ss2) := by
            rw [show ss2.reverse ++ [T2] = (T2 :: ss2).reverse by simp]
            exact segLenSumReverse (T2 :: ss2)
          refine ⟨by simp; omega, by simp, fun hn2 => ?_⟩
          exact absurd hn2 (by simp)
        · rw [if_neg hn, if_neg hn]
          exact hrec (count + 1)

theorem getqLt {α : Type} {l : List α} {j : Nat} {x : α} (h : l[j]? = some x) :
    j < l.length := by
  by_contra hge
  rw [List.getElem?_eq_none (by omega)] at h
  simp at h

theorem memOfGetq {α : Type} : ∀ {l : List α} {j : Nat} {x : α}, l[j]? = some x → x ∈ l := by
  intro l
  induction l with
  | nil =>
    intro j x h
    simp at h
  | cons a t ih =>
    intro j x h
    cases j with
    | zero =>
      simp at h
      simp [h]
    | succ j =>
      simp only [List.getElem?_cons_succ] at h
      exact List.mem_cons_of_mem _ (ih h)

theorem segLenSumTakeLe (ls : List (List Char)) (k : Nat) :
    segLenSum (ls.take k) ≤ segLenSum ls := by
  conv_rhs => rw [← List.take_append_drop k ls]
  rw [segLenSumAppend]
  omega

theorem lineStartMono (ls : List (List Char)) {j1 j2 : Nat} (h : j1 ≤ j2) :
    lineStart ls j1 ≤ lineStart ls j2 := by
  rw [lineStartTake, lineStartTake]
  have ht : ls.take j1 = (ls.take j2).take j1 := by
    rw [List.take_take, Nat.min_eq_left h]
  rw [ht]
  exact segLenSumTakeLe _ _

theorem takeSplitAt (ls : List (List Char)) (k j : Nat) (h : k ≤ j) :
    ls.take j = ls.take k ++ (ls.drop k).take (j - k) := by
  rw [show j = k + (j - k) by omega, List.take_add]
  rw [show k + (j - k) - k = j - k by omega]

theorem dropSplitAt (ls : List (List Char)) (k j : Nat) (h : k ≤ j) (y : List Char)
    (hy : ls[j]? = some y) :
    ls.drop k = (ls.drop k).take (j - k) ++ y :: ls.drop (j + 1) := by
  have hlt : j < ls.length := getqLt hy
  have h1 : ls.drop k = (ls.drop k).take (j - k) ++ (ls.drop k).drop (j - k) :=
    (List.take_append_drop _ _).symm
  have h2 : (ls.drop k).drop (j - k) = ls.drop j := by
    rw [List.drop_drop]
    rw [show k + (j - k) = j by omega]
  have h3 : ls.drop j = y :: ls.drop (j + 1) := by
    have := List.drop_eq_getElem_cons hlt
    rw [this]
    have : ls[j] = y := by
      have h4 : ls[j]? = some ls[j] := List.getElem?_eq_getElem hlt
      rw [h4] at hy
      exact (Option.some.injEq _ _).mp hy.symm |>.symm
    rw [this]
  rw [← h3, ← h2]
  exact h1

theorem lineStartAddMid (ls : List (List Char)) (k j : Nat) (h : k ≤ j) :
    lineStart ls j = lineStart ls k + segLenSum ((ls.drop k).take (j - k)) := by
  rw [lineStartTake, lineStartTake, takeSplitAt ls k j h, segLenSumAppend]

theorem getLastDRevCons (x : List Char) (l : List (List Char)) (d : List Char) :
    ((x :: l).reverse).getLastD d = x := by
  rw [List.reverse_cons, List.getLastD_concat]

theorem seekTailForSpec (contf : List Char → Bool) (C N : Nat) (lines : List (List Char))
    (hC : 1 ≤ C) (hfree : ∀ l ∈ lines, '\n' ∉ l) :
    ∀ (n : Nat) (chunk : List Char) (pv : Option Int) (count j : Nat) (a b : List Char),
      lines[j]? = some (a ++ b) →
      lineStart lines j + a.length = C * n →
      pySliceTo chunk pv = b →
      seekTailForAux contf (fileOfLines lines) C N n chunk count pv false
        = (segScanR contf N 0 ((lines.take (j + 1)).reverse) count).1.getD 0 := by
  intro n
  induction n with
  | zero =>
    intro chunk pv count j a b hj hP htail
    have hjlt : j < lines.length := getqLt hj
    have hj0 : j = 0 := by
      by_contra hne
      have h2 : (lines.take j).length = j := by
        rw [List.length_take]
        omega
      have h3 := segLenSumGeLen (lines.take j)
      rw [lineStartTake] at hP
      omega
    subst hj0
    have hlines : lines.take 1 = [a ++ b] := by
      cases lines with
      | nil => simp at hj
      | cons x rest =>
        simp at hj
        rw [hj]
        rfl
    rw [hlines]
    rfl
  | succ n ih =>
    intro chunk pv count j a b hj hP htail
    have hjlt : j < lines.length := getqLt hj
    have hmem : (a ++ b) ∈ lines := memOfGetq hj
    have hfj : '\n' ∉ a ++ b := hfree _ hmem
    have hsucc : lineStart lines (j + 1) = lineStart lines j + ((a ++ b).length + 1) :=
      lineStartSucc lines j _ hj
    have hab : (a ++ b).length = a.length + b.length := List.length_append _ _
    simp only [seekTailForAux, Bool.false_eq_true, if_false]
    rw [htail]
    by_cases hCa : C ≤ a.length
    · -- the chunk is interior to line j: no newline, the tail just grows
      have hsplit : a = a.take (a.length - C) ++ a.drop (a.length - C) :=
        (List.take_append_drop _ _).symm
      have hlen2 : (a.take (a.length - C)).length = a.length - C := by
        rw [List.length_take]
        omega
      have hlenm : (a.drop (a.length - C)).length = C := by
        rw [List.length_drop]
        omega
      have hj2 : lines[j]? = some (a.take (a.length - C) ++ (a.drop (a.length - C) ++ b)) := by
        rw [hj]
        rw [show a.take (a.length - C) ++ (a.drop (a.length - C) ++ b)
            = (a.take (a.length - C) ++ a.drop (a.length - C)) ++ b by
          rw [List.append_assoc]]
        rw [← hsplit]
      have hP2 : lineStart lines j + (a.take (a.length - C)).length = C * n := by
        rw [hlen2]
        have hCn : C * (n + 1) = C * n + C := by ring
        omega
      have hdrop : (fileOfLines lines).drop (C * n)
          = (a.drop (a.length - C) ++ b) ++ '\n' :: fileOfLines (lines.drop (j + 1)) := by
        rw [← hP2]
        exact fileDropLineStart lines j _ _ hj2
      have hchunk2 : ((fileOfLines lines).drop (C * n)).take C ++ b
          = a.drop (a.length - C) ++ b := by
        rw [hdrop, List.append_assoc, List.take_left' hlenm]
      rw [hchunk2]
      have hfree2 : '\n' ∉ a.drop (a.length - C) ++ b := by
        intro hc
        apply hfj
        rw [hsplit, List.append_assoc]
        exact List.mem_append_right _ hc
      rw [pyRfindNotMem _ '\n' none hfree2]
      simp only [seekTailWhileAux]
      rw [if_pos (by norm_num : (-1 : Int) < 0)]
      show seekTailForAux contf (fileOfLines lines) C N n
        (a.drop (a.length - C) ++ b) count none false = _
      exact ih _ none count j _ _ hj2 hP2 (pySliceToAll _)
    · -- the chunk starts below line j
      have hPlt : C * n < segLenSum lines := by
        have h1 : lineStart lines (j + 1) ≤ segLenSum lines := by
          rw [lineStartTake]
          exact segLenSumTakeLe _ _
        have hCn : C * (n + 1) = C * n + C := by ring
        omega
      obtain ⟨j2, a0, b0, hj2, hP2⟩ := lineIdxOf lines (C * n) hPlt
      have hj2lt : j2 < lines.length := getqLt hj2
      have hab0 : (a0 ++ b0).length = a0.length + b0.length := List.length_append _ _
      have hj2j : j2 < j := by
        by_contra hge
        push_neg at hge
        rcases Nat.eq_or_lt_of_le hge with heq | hlt2
        · rw [← heq] at hj2 hP2
          rw [hj2] at hj
          have : a0 ++ b0 = a ++ b := by
            have := hj
            simpa using this
          have hCn : C * (n + 1) = C * n + C := by ring
          have hlen : (a0 ++ b0).length = (a ++ b).length := by rw [this]
          omega
        · have hm := lineStartMono lines (show j + 1 ≤ j2 by omega)
          have hCn : C * (n + 1) = C * n + C := by ring
          have hm2 : lineStart lines j2 ≤ C * n := by omega
          omega
      have htake : lines.take (j + 1)
          = lines.take (j2 + 1) ++ ((lines.drop (j2 + 1)).take (j - (j2 + 1)) ++ [a ++ b]) := by
        have h1 : lines.take (j + 1) = lines.take j ++ [a ++ b] := by
          rw [List.take_succ, hj]
          rfl
        have h2 : lines.take j
            = lines.take (j2 + 1) ++ (lines.drop (j2 + 1)).take (j - (j2 + 1)) :=
          takeSplitAt lines (j2 + 1) j (by omega)
        rw [h1, h2, List.append_assoc]
      have hdropj2 : lines.drop (j2 + 1)
          = (lines.drop (j2 + 1)).take (j - (j2 + 1)) ++ (a ++ b) :: lines.drop (j + 1) :=
        dropSplitAt lines (j2 + 1) j (by omega) _ hj
      have hmem0 : (a0 ++ b0) ∈ lines := memOfGetq hj2
      have hfb0 : '\n' ∉ b0 := fun hc => hfree _ hmem0 (List.mem_append_right _ hc)
      have hfmid : ∀ s ∈ (lines.drop (j2 + 1)).take (j - (j2 + 1)), '\n' ∉ s := by
        intro s hs
        exact hfree s (List.mem_of_mem_drop (List.mem_of_mem_take hs))
      have hsucc2 : lineStart lines (j2 + 1) = lineStart lines j2 + ((a0 ++ b0).length + 1) :=
        lineStartSucc lines j2 _ hj2
      have hmidsum : lineStart lines j
          = lineStart lines (j2 + 1) + segLenSum ((lines.drop (j2 + 1)).take (j - (j2 + 1))) :=
        lineStartAddMid lines (j2 + 1) j (by omega)
      have hdropP2 : (fileOfLines lines).drop (C * n)
          = b0 ++ '\n' :: fileOfLines ((lines.drop (j2 + 1)).take (j - (j2 + 1))
              ++ (a ++ b) :: lines.drop (j + 1)) := by
        rw [← hP2, fileDropLineStart lines j2 a0 b0 hj2]
        conv_lhs => rw [hdropj2]
      have hdropP : (fileOfLines lines).drop (C * (n + 1))
          = b ++ '\n' :: fileOfLines (lines.drop (j + 1)) := by
        rw [← hP]
        exact fileDropLineStart lines j a b hj
      have hCb : C + b.length
          = b0.length + (1 + (segLenSum ((lines.drop (j2 + 1)).take (j - (j2 + 1)))
              + (a ++ b).length)) := by
        have hCn : C * (n + 1) = C * n + C := by ring
        omega
      have hchunk2 : ((fileOfLines lines).drop (C * n)).take C ++ b
          = joinNl (b0 :: ((lines.drop (j2 + 1)).take (j - (j2 + 1)) ++ [a ++ b])) := by
        have hb : b = (((fileOfLines lines).drop (C * n)).drop C).take b.length := by
          rw [List.drop_drop, show C * n + C = C * (n + 1) by ring, hdropP, List.take_left]
        conv_lhs => rw [hb]
        rw [← List.take_add, hCb, hdropP2]
        exact takeRegion b0 (a ++ b) _ (lines.drop (j + 1))
      rw [hchunk2]
      have hjoin2 : joinNl (b0 :: ((lines.drop (j2 + 1)).take (j - (j2 + 1)) ++ [a ++ b]))
          = joinNl (b0 :: (lines.drop (j2 + 1)).take (j - (j2 + 1))) ++ '\n' :: (a ++ b) := by
        rw [show b0 :: ((lines.drop (j2 + 1)).take (j - (j2 + 1)) ++ [a ++ b])
            = (b0 :: (lines.drop (j2 + 1)).take (j - (j2 + 1))) ++ [a ++ b] by simp]
        exact joinNlSnoc _ _ (by simp)
      rw [show pyRfind (joinNl (b0 :: ((lines.drop (j2 + 1)).take (j - (j2 + 1)) ++ [a ++ b])))
          '\n' none
          = ((joinNl (b0 :: (lines.drop (j2 + 1)).take (j - (j2 + 1)))).length : Int) by
        rw [hjoin2]
        exact pyRfindLastNl _ _ hfj]
      have hW := seekTailWhileSpec contf N (C * n)
        ((b0 :: (lines.drop (j2 + 1)).take (j - (j2 + 1))).reverse) (a ++ b) []
        (joinNl (b0 :: ((lines.drop (j2 + 1)).take (j - (j2 + 1)) ++ [a ++ b]))) none count
        ((joinNl (b0 :: ((lines.drop (j2 + 1)).take (j - (j2 + 1)) ++ [a ++ b]))).length + 1)
        (by simp)
        (by
          intro s hs
          rw [List.mem_reverse, List.mem_cons] at hs
          rcases hs with hs | hs
          · subst hs
            exact hfb0
          · exact hfmid s hs)
        (by
          rw [List.reverse_reverse, List.append_nil]
          exact hjoin2)
        (by
          rw [List.reverse_reverse, hjoin2]
          rw [show joinNl (b0 :: (lines.drop (j2 + 1)).take (j - (j2 + 1))) ++ '\n' :: (a ++ b)
              = (joinNl (b0 :: (lines.drop (j2 + 1)).take (j - (j2 + 1))) ++ ['\n']) ++ (a ++ b)
            by simp]
          rw [show ((joinNl (b0 :: (lines.drop (j2 + 1)).take (j - (j2 + 1)))).length : Int) + 1
              = (((joinNl (b0 :: (lines.drop (j2 + 1)).take (j - (j2 + 1)))
                  ++ ['\n']).length : Nat) : Int) by simp]
          exact pySliceFromPast _ _)
        (by
          have h1 : segLenSum (b0 :: ((lines.drop (j2 + 1)).take (j - (j2 + 1)) ++ [a ++ b]))
              = (joinNl (b0 :: ((lines.drop (j2 + 1)).take (j - (j2 + 1)) ++ [a ++ b]))).length
                + 1 :=
            segLenSumJoin _ (by simp)
          have h2 := segLenSumGeLen
            (b0 :: ((lines.drop (j2 + 1)).take (j - (j2 + 1)) ++ [a ++ b]))
          simp only [List.length_reverse, List.length_cons, List.length_append] at h1 h2 ⊢
          omega)
      rw [List.reverse_reverse] at hW
      have hsplit2 := segScanRSplit contf N ((a ++ b) :: ((lines.drop (j2 + 1)).take
          (j - (j2 + 1))).reverse) count (C * n) 0 b0 ((lines.take (j2 + 1)).reverse)
        (by
          simp only [ne_eq, List.reverse_eq_nil_iff, List.take_eq_nil_iff]
          intro h
          rcases h with h | h
          · omega
          · subst h
            simp at hjlt)
        (by
          rw [segLenSumReverse, ← lineStartTake]
          omega)
      have hlist1 : ((a ++ b) :: ((lines.drop (j2 + 1)).take (j - (j2 + 1))).reverse) ++ [b0]
          = (a ++ b) :: (b0 :: (lines.drop (j2 + 1)).take (j - (j2 + 1))).reverse := by
        simp
      have hlist2 : ((a ++ b) :: ((lines.drop (j2 + 1)).take (j - (j2 + 1))).reverse)
            ++ (lines.take (j2 + 1)).reverse
          = (lines.take (j + 1)).reverse := by
        rw [htake]
        simp
      rw [hlist1, hlist2] at hsplit2
      rcases hsw : seekTailWhileAux contf N (C * n)
          (joinNl (b0 :: ((lines.drop (j2 + 1)).take (j - (j2 + 1)) ++ [a ++ b])))
          ((joinNl (b0 :: ((lines.drop (j2 + 1)).take (j - (j2 + 1)) ++ [a ++ b]))).length + 1)
          count none
          ((joinNl (b0 :: (lines.drop (j2 + 1)).take (j - (j2 + 1)))).length : Int)
        with ⟨w1, w2, w3⟩
      rw [hsw] at hW
      simp only at hW
      rcases hr1 : (segScanR contf N (C * n)
          ((a ++ b) :: (b0 :: (lines.drop (j2 + 1)).take (j - (j2 + 1))).reverse) count).1
        with _ | t
      · -- the while loop exhausted this chunk: recurse into the one below
        have hw1 : w1 = none := by rw [hW.1, hr1]
        have hw3 : w3 = some ((b0.length : Nat) : Int) := by
          rw [hW.2.2 hr1, getLastDRevCons]
        subst hw1
        show seekTailForAux contf (fileOfLines lines) C N n
          (joinNl (b0 :: ((lines.drop (j2 + 1)).take (j - (j2 + 1)) ++ [a ++ b]))) w2 w3 false
          = _
        have htail2 : pySliceTo
            (joinNl (b0 :: ((lines.drop (j2 + 1)).take (j - (j2 + 1)) ++ [a ++ b]))) w3
            = b0 := by
          rw [hw3, joinNlCons _ _ (by simp)]
          exact pySliceToPrefix b0 _
        rw [ih _ w3 w2 j2 a0 b0 hj2 hP2 htail2]
        rw [hsplit2.1 hr1, hW.2.1]
      · have hw1 : w1 = some t := by rw [hW.1, hr1]
        subst hw1
        show t = _
        rw [hsplit2.2 t hr1]
        rfl

theorem seekTailEq (contf : List Char → Bool) (C N : Nat) (lines : List (List Char))
    (hC : 1 ≤ C) (hne : lines ≠ []) (hfree : ∀ l ∈ lines, '\n' ∉ l) :
    seekTail contf (fileOfLines lines) C N
      = (segScanR contf N 0 lines.reverse 0).1.getD 0 := by
  have hL : (fileOfLines lines).length = segLenSum lines := fileOfLinesLength lines
  have hlen1 : 0 < lines.length := List.length_pos.mpr hne
  have hL1 : 1 ≤ segLenSum lines := le_trans hlen1 (segLenSumGeLen lines)
  show seekTailForAux contf (fileOfLines lines) C N
    ((fileOfLines lines).length / C
      + if (fileOfLines lines).length % C = 0 then 0 else 1) [] 0 none true = _
  have hdm := Nat.div_add_mod (fileOfLines lines).length C
  have hmlt : (fileOfLines lines).length % C < C := Nat.mod_lt _ (by omega)
  obtain ⟨m, hm⟩ : ∃ m, (fileOfLines lines).length / C
      + (if (fileOfLines lines).length % C = 0 then 0 else 1) = m + 1 := by
    by_cases hmod : (fileOfLines lines).length % C = 0
    · rw [if_pos hmod]
      have hq1 : 0 < (fileOfLines lines).length / C := by
        by_contra h0
        push_neg at h0
        have hq0 : (fileOfLines lines).length / C = 0 := Nat.le_zero.mp h0
        rw [hq0] at hdm
        simp at hdm
        omega
      exact ⟨(fileOfLines lines).length / C - 1, by omega⟩
    · rw [if_neg hmod]
      exact ⟨(fileOfLines lines).length / C, by omega⟩
  rw [hm]
  have hup : (fileOfLines lines).length ≤ C * (m + 1) := by
    have hmul : C * (m + 1) = C * m + C := by ring
    by_cases hmod : (fileOfLines lines).length % C = 0
    · rw [if_pos hmod] at hm
      have hq : (fileOfLines lines).length / C = m + 1 := by omega
      rw [hq] at hdm
      omega
    · rw [if_neg hmod] at hm
      have hq : (fileOfLines lines).length / C = m := by omega
      rw [hq] at hdm
      omega
  have hlow : C * m < (fileOfLines lines).length := by
    have hmul : C * (m + 1) = C * m + C := by ring
    by_cases hmod : (fileOfLines lines).length % C = 0
    · rw [if_pos hmod] at hm
      have hq : (fileOfLines lines).length / C = m + 1 := by omega
      rw [hq] at hdm
      omega
    · rw [if_neg hmod] at hm
      have hq : (fileOfLines lines).length / C = m := by omega
      rw [hq] at hdm
      omega
  have hmulTop : C * (m + 1) = C * m + C := by ring
  obtain ⟨j0, a0, b0, hj0, hP0⟩ := lineIdxOf lines (C * m) (by omega)
  have hj0lt : j0 < lines.length := getqLt hj0
  have hab0 : (a0 ++ b0).length = a0.length + b0.length := List.length_append _ _
  have hmem0 : (a0 ++ b0) ∈ lines := memOfGetq hj0
  have hfb0 : '\n' ∉ b0 := fun hc => hfree _ hmem0 (List.mem_append_right _ hc)
  have hsucc0 : lineStart lines (j0 + 1) = lineStart lines j0 + ((a0 ++ b0).length + 1) :=
    lineStartSucc lines j0 _ hj0
  have hdrop0 : (fileOfLines lines).drop (C * m)
      = b0 ++ '\n' :: fileOfLines (lines.drop (j0 + 1)) := by
    rw [← hP0]
    exact fileDropLineStart lines j0 a0 b0 hj0
  simp only [seekTailForAux, eq_self_iff_true, if_true]
  rw [pySliceToAll, List.append_nil]
  have htk : ((fileOfLines lines).drop (C * m)).take C = (fileOfLines lines).drop (C * m) :=
    List.take_of_length_le (by rw [List.length_drop]; omega)
  rw [htk, hdrop0]
  rcases List.eq_nil_or_concat (lines.drop (j0 + 1)) with hrest | ⟨ys, z, hrest⟩
  · -- the chunk boundary falls inside the last line
    have hj0last : j0 + 1 = lines.length := by
      have := List.drop_eq_nil_iff.mp hrest
      omega
    rw [hrest]
    rw [show fileOfLines [] = [] from rfl]
    rw [show (b0 ++ '\n' :: ([] : List Char)) = b0 ++ '\n' :: ([] : List Char) from rfl]
    rw [show pyRfind (b0 ++ '\n' :: ([] : List Char)) '\n' none = ((b0.length : Nat) : Int)
      from pyRfindLastNl b0 [] (by simp)]
    rw [show b0 ++ '\n' :: ([] : List Char) = b0 ++ ['\n'] from rfl]
    rw [pyRfindPrefix b0 ['\n'] '\n', pyRfindNotMem b0 '\n' none hfb0]
    simp only [seekTailWhileAux]
    rw [if_pos (by norm_num : (-1 : Int) < 0)]
    show seekTailForAux contf (fileOfLines lines) C N m (b0 ++ ['\n']) 0
      (some ((b0.length : Nat) : Int)) false = _
    rw [seekTailForSpec contf C N lines hC hfree m (b0 ++ ['\n'])
      (some ((b0.length : Nat) : Int)) 0 j0 a0 b0 hj0 hP0 (pySliceToPrefix b0 ['\n'])]
    rw [show lines.take (j0 + 1) = lines from List.take_of_length_le (by omega)]
  · -- at least one full line lies above the chunk boundary
    rw [List.concat_eq_append] at hrest
    have hys : lines.drop (j0 + 1) ≠ [] := by
      rw [hrest]
      simp
    have hfz : '\n' ∉ z :=
      hfree z (List.mem_of_mem_drop (by rw [hrest]; exact List.mem_append_right _ (by simp)))
    have hfys : ∀ s ∈ ys, '\n' ∉ s := fun s hs =>
      hfree s (List.mem_of_mem_drop (by rw [hrest]; exact List.mem_append_left _ hs))
    have hfile2 : b0 ++ '\n' :: fileOfLines (lines.drop (j0 + 1))
        = joinNl (b0 :: (ys ++ [z])) ++ ['\n'] := by
      rw [hrest, fileOfLinesJoin _ (by simp), joinNlCons _ _ (by simp)]
      simp
    have hjoinA : joinNl (b0 :: (ys ++ [z])) = joinNl (b0 :: ys) ++ '\n' :: z := by
      rw [show b0 :: (ys ++ [z]) = (b0 :: ys) ++ [z] by simp]
      exact joinNlSnoc _ _ (by simp)
    rw [hfile2]
    rw [show pyRfind (joinNl (b0 :: (ys ++ [z])) ++ ['\n']) '\n' none
        = (((joinNl (b0 :: (ys ++ [z]))).length : Nat) : Int) by
      rw [show joinNl (b0 :: (ys ++ [z])) ++ ['\n']
          = joinNl (b0 :: (ys ++ [z])) ++ '\n' :: [] from rfl]
      exact pyRfindLastNl _ [] (by simp)]
    rw [pyRfindPrefix _ ['\n'] '\n']
    rw [show pyRfind (joinNl (b0 :: (ys ++ [z]))) '\n' none
        = (((joinNl (b0 :: ys)).length : Nat) : Int) by
      rw [hjoinA]
      exact pyRfindLastNl _ z hfz]
    have hW := seekTailWhileSpec contf N (C * m) ((b0 :: ys).reverse) z ['\n']
      (joinNl (b0 :: (ys ++ [z])) ++ ['\n'])
      (some (((joinNl (b0 :: (ys ++ [z]))).length : Nat) : Int)) 0
      ((joinNl (b0 :: (ys ++ [z])) ++ ['\n']).length + 1)
      (by simp)
      (by
        intro s hs
        rw [List.mem_reverse, List.mem_cons] at hs
        rcases hs with hs | hs
        · subst hs
          exact hfb0
        · exact hfys s hs)
      (by
        rw [List.reverse_reverse, hjoinA]
        simp)
      (by
        rw [List.reverse_reverse, hjoinA]
        rw [show (joinNl (b0 :: ys) ++ '\n' :: z) ++ ['\n']
            = (joinNl (b0 :: ys) ++ ['\n']) ++ (z ++ ['\n']) by simp]
        rw [show (((joinNl (b0 :: ys)).length : Int) + 1)
            = (((joinNl (b0 :: ys) ++ ['\n']).length : Nat) : Int) by simp]
        rw [show (joinNl (b0 :: ys) ++ '\n' :: z).length
            = (joinNl (b0 :: ys) ++ ['\n']).length + z.length by simp; omega]
        exact pySliceMid _ z _)
      (by
        have h1 : segLenSum (b0 :: (ys ++ [z]))
            = (joinNl (b0 :: (ys ++ [z]))).length + 1 := segLenSumJoin _ (by simp)
        have h2 := segLenSumGeLen (b0 :: (ys ++ [z]))
        simp only [List.length_reverse, List.length_cons, List.length_append] at h1 h2 ⊢
        omega)
    rw [List.reverse_reverse] at hW
    have hsplit2 := segScanRSplit contf N (z :: ys.reverse) 0 (C * m) 0 b0
      ((lines.take (j0 + 1)).reverse)
      (by
        simp only [ne_eq, List.reverse_eq_nil_iff, List.take_eq_nil_iff]
        intro h
        rcases h with h | h
        · omega
        · subst h
          simp at hj0lt)
      (by
        rw [segLenSumReverse, ← lineStartTake]
        omega)
    have hlist1 : (z :: ys.reverse) ++ [b0] = z :: (b0 :: ys).reverse := by simp
    have hlist2 : (z :: ys.reverse) ++ (lines.take (j0 + 1)).reverse = lines.reverse := by
      conv_rhs => rw [← List.take_append_drop (j0 + 1) lines]
      rw [hrest]
      simp
    rw [hlist1, hlist2] at hsplit2
    rcases hsw : seekTailWhileAux contf N (C * m) (joinNl (b0 :: (ys ++ [z])) ++ ['\n'])
        ((joinNl (b0 :: (ys ++ [z])) ++ ['\n']).length + 1) 0
        (some (((joinNl (b0 :: (ys ++ [z]))).length : Nat) : Int))
        (((joinNl (b0 :: ys)).length : Nat) : Int)
      with ⟨w1, w2, w3⟩
    rw [hsw] at hW
    simp only at hW
    rcases hr1 : (segScanR contf N (C * m) (z :: (b0 :: ys).reverse) 0).1 with _ | t
    · have hw1 : w1 = none := by rw [hW.1, hr1]
      have hw3 : w3 = some ((b0.length : Nat) : Int) := by
        rw [hW.2.2 hr1, getLastDRevCons]
      subst hw1
      show seekTailForAux contf (fileOfLines lines) C N m
        (joinNl (b0 :: (ys ++ [z])) ++ ['\n']) w2 w3 false = _
      have htail2 : pySliceTo (joinNl (b0 :: (ys ++ [z])) ++ ['\n']) w3 = b0 := by
        rw [hw3, joinNlCons _ _ (by simp)]
        rw [show (b0 ++ '\n' :: joinNl (ys ++ [z])) ++ ['\n']
            = b0 ++ ('\n' :: joinNl (ys ++ [z]) ++ ['\n']) by simp]
        exact pySliceToPrefix b0 _
      rw [seekTailForSpec contf C N lines hC hfree m _ w3 w2 j0 a0 b0 hj0 hP0 htail2]
      rw [hsplit2.1 hr1, hW.2.1]
    · have hw1 : w1 = some t := by rw [hW.1, hr1]
      subst hw1
      show t = _
      rw [hsplit2.2 t hr1]
      rfl

theorem segScanRSkip (contf : List Char → Bool) (N base : Nat) :
    ∀ (cs rest : List (List Char)) (count : Nat), rest ≠ [] →
      (∀ s ∈ cs, contf s = true) →
      segScanR contf N base (cs ++ rest) count = segScanR contf N base rest count := by
  intro cs
  induction cs with
  | nil =>
    intro rest count _ _
    rfl
  | cons c cs2 ih =>
    intro rest count hrest hall
    rw [List.cons_append, segScanRCons contf N base c (cs2 ++ rest)
      (by
        intro h
        rcases List.append_eq_nil.mp h with ⟨_, h2⟩
        exact hrest h2) count]
    rw [if_pos (hall c (by simp))]
    exact ih rest count hrest (fun s hs => hall s (by simp [hs]))

theorem segScanRHeaders (contf : List Char → Bool) (N : Nat) :
    ∀ (hdrs : List (List Char)) (count : Nat), hdrs ≠ [] → count < N →
      (∀ s ∈ hdrs, contf s = false) →
      segScanR contf N 0 hdrs.reverse count
        = if N ≤ count + (hdrs.length - 1)
          then (some (lineStart hdrs (hdrs.length + count - N)), N)
          else (none, count + (hdrs.length - 1)) := by
  intro hdrs
  induction hdrs using List.reverseRecOn with
  | nil =>
    intro count h
    exact absurd rfl h
  | append_singleton init l ihr =>
    intro count _ hcount hall
    by_cases hinit : init = []
    · subst hinit
      rw [if_neg (by simp; omega)]
      simp [segScanR]
    · have hlen : 0 < init.length := List.length_pos.mpr hinit
      rw [show (init ++ [l]).reverse = l :: init.reverse by simp]
      rw [segScanRCons contf N 0 l init.reverse (by simp [hinit]) count]
      rw [if_neg (by rw [hall l (by simp)]; simp)]
      by_cases hstep : N ≤ count + 1
      · rw [if_pos hstep]
        have hN : N = count + 1 := by omega
        rw [if_pos (by simp; omega)]
        have hidx : (init ++ [l]).length + count - N = init.length := by
          simp
          omega
        rw [hidx]
        have hls : lineStart (init ++ [l]) init.length = segLenSum init.reverse := by
          rw [lineStartTake, List.take_left, segLenSumReverse]
        rw [← hls, hN]
        simp
      · rw [if_neg hstep]
        rw [ihr (count + 1) hinit (by omega) (fun s hs => hall s (by simp [hs]))]
        by_cases hcase : N ≤ count + 1 + (init.length - 1)
        · rw [if_pos hcase, if_pos (by simp; omega)]
          have hidx : init.length + (count + 1) - N = (init ++ [l]).length + count - N := by
            simp
            omega
          rw [hidx]
          have hbound : (init ++ [l]).length + count - N ≤ init.length := by
            simp
            omega
          rw [lineStartPrefix init [l] _ hbound]
        · rw [if_neg hcase, if_neg (by simp; omega)]
          have : count + 1 + (init.length - 1) = count + ((init ++ [l]).length - 1) := by
            simp
            omega
          rw [this]

/-- C2: tail-N seeking.  For a file of newline-terminated lines in which
every header line precedes every continuation line, `_seek_tail` with
`tail_length = N` (for any chunk size, in particular the source's 1024)
leaves the position at the byte offset of header line `max(0, H - N)`:
continuation lines are never counted toward `N`, no matter how lines
straddle chunk boundaries.  With no continuation lines this is the byte
offset of header line `max(0, M - N)` of an `M`-line file. -/
theorem tail_seek (hdrs conts : List (List Char)) (C N : Nat)
    (hh : hdrs ≠ []) (hC : 1 ≤ C) (hN : 1 ≤ N)
    (hhdr : ∀ l ∈ hdrs, '\n' ∉ l ∧ isContinuationLine l = false)
    (hcont : ∀ l ∈ conts, '\n' ∉ l ∧ isContinuationLine l = true) :
    seekTail isContinuationLine (fileOfLines (hdrs ++ conts)) C N
      = lineStart (hdrs ++ conts) (hdrs.length - N) := by
  rw [seekTailEq isContinuationLine C N (hdrs ++ conts) hC (by simp [hh])
    (by
      intro l hl
      rcases List.mem_append.mp hl with h | h
      · exact (hhdr l h).1
      · exact (hcont l h).1)]
  rw [List.reverse_append]
  rw [segScanRSkip isContinuationLine N 0 conts.reverse hdrs.reverse 0
    (by simp [hh]) (fun s hs => (hcont s (List.mem_reverse.mp hs)).2)]
  rw [segScanRHeaders isContinuationLine N hdrs 0 hh (by omega)
    (fun s hs => (hhdr s hs).2)]
  by_cases hcase : N ≤ 0 + (hdrs.length - 1)
  · rw [if_pos hcase]
    simp only [Option.getD_some]
    rw [show hdrs.length + 0 - N = hdrs.length - N by omega]
    exact (lineStartPrefix hdrs conts _ (by omega)).symm
  · rw [if_neg hcase]
    have hlen : 0 < hdrs.length := List.length_pos.mpr hh
    rw [show hdrs.length - N = 0 by omega]
    simp [lineStart]

/-- Witness for C2 at a concrete four-line file (three headers, one trailing
continuation line) with chunk size 8 — far smaller than the lines, so lines
straddle several chunks — and tail length 2: the seek lands at the start of
header line 1. -/
theorem tail_seek_witness :
    seekTail isContinuationLine
        (fileOfLines ([("2000-01-01 00:00:01,000 a").toList,
          ("2000-01-01 00:00:02,000 b").toList,
          ("2000-01-01 00:00:03,000 c").toList]
          ++ [("  at example").toList])) 8 2
      = lineStart ([("2000-01-01 00:00:01,000 a").toList,
          ("2000-01-01 00:00:02,000 b").toList,
          ("2000-01-01 00:00:03,000 c").toList]
          ++ [("  at example").toList]) (3 - 2) :=
  tail_seek _ _ 8 2 (by decide) (by decide) (by decide) (by decide) (by decide)

/-! ### C3: groundwork on the seek-time helpers -/

theorem lineStartLast (lines : List (List Char)) :
    lineStart lines lines.length = (fileOfLines lines).length := by
  rw [lineStartTake, List.take_length, fileOfLinesLength]

theorem readLinePastEof (file : List Char) (p : Nat) (h : file.length ≤ p) :
    readLine file p = [] := by
  unfold readLine
  rw [List.drop_eq_nil_of_le h]
  rfl

theorem readLineAtStart (lines : List (List Char)) (k : Nat) (x : List Char)
    (hfree : ∀ l ∈ lines, '\n' ∉ l) (hx : lines[k]? = some x) :
    readLine (fileOfLines lines) (lineStart lines k) = x ++ ['\n'] := by
  have hd := fileDropLineStart lines k [] x (by simpa using hx)
  simp only [List.length_nil, Nat.add_zero, List.nil_append] at hd
  unfold readLine
  rw [hd]
  exact takeLineAppend x _ (hfree x (memOfGetq hx))

theorem readLineMid (lines : List (List Char)) (k d : Nat) (x : List Char)
    (hfree : ∀ l ∈ lines, '\n' ∉ l) (hx : lines[k]? = some x) (hd2 : d ≤ x.length) :
    readLine (fileOfLines lines) (lineStart lines k + d) = x.drop d ++ ['\n'] := by
  have hsp : x = x.take d ++ x.drop d := (List.take_append_drop _ _).symm
  have hdp := fileDropLineStart lines k (x.take d) (x.drop d)
    (by rw [hx]; exact congrArg some hsp)
  rw [List.length_take, Nat.min_eq_left hd2] at hdp
  unfold readLine
  rw [hdp]
  exact takeLineAppend _ _ (fun hm => hfree x (memOfGetq hx) (List.mem_of_mem_drop hm))

theorem dropConsAt (lines : List (List Char)) (k : Nat) (x : List Char)
    (hx : lines[k]? = some x) :
    lines.drop k = x :: lines.drop (k + 1) := by
  have hklt : k < lines.length := getqLt hx
  rw [List.drop_eq_getElem_cons hklt]
  have h4 : lines[k]? = some lines[k] := List.getElem?_eq_getElem hklt
  rw [h4] at hx
  rw [(Option.some.injEq _ _).mp hx]

theorem scanPastEof (contf : List Char → Bool) (file t : List Char) (fuel p : Nat)
    (hf : 1 ≤ fuel) (h : file.length ≤ p) :
    seekTimeInChunkAux contf file t fuel p = file.length := by
  cases fuel with
  | zero => omega
  | succ f =>
    simp only [seekTimeInChunkAux]
    rw [readLinePastEof file p h]
    simp

theorem scanChar (contf : List Char → Bool) (lines : List (List Char)) (t : List Char)
    (hfree : ∀ l ∈ lines, '\n' ∉ l)
    (hhdr : ∀ l ∈ lines, contf (l ++ ['\n']) = false) :
    ∀ (fuel k : Nat), k ≤ lines.length → lines.length - k < fuel →
      ((seekTimeInChunkAux contf (fileOfLines lines) t fuel (lineStart lines k)
            = (fileOfLines lines).length
          ∧ ∀ l ∈ lines.drop k, getTimeString (l ++ ['\n']) < t)
        ∨ (∃ k2, k ≤ k2 ∧ k2 < lines.length
            ∧ seekTimeInChunkAux contf (fileOfLines lines) t fuel (lineStart lines k)
                = lineStart lines k2
            ∧ t ≤ getTimeString ((lines[k2]?.getD []) ++ ['\n'])
            ∧ ∀ i, k ≤ i → i < k2 →
                getTimeString ((lines[i]?.getD []) ++ ['\n']) < t)) := by
  intro fuel
  induction fuel with
  | zero =>
    intro k h1 h2
    omega
  | succ f ih =>
    intro k hk hfuel
    by_cases hkM : k = lines.length
    · left
      subst hkM
      constructor
      · rw [lineStartLast]
        exact scanPastEof contf (fileOfLines lines) t (f + 1)
          ((fileOfLines lines).length) (by omega) le_rfl
      · simp
    · have hklt : k < lines.length := by omega
      obtain ⟨x, hx⟩ : ∃ x, lines[k]? = some x := by
        rw [List.getElem?_eq_getElem hklt]
        exact ⟨_, rfl⟩
      have hmemx : x ∈ lines := memOfGetq hx
      have hrl := readLineAtStart lines k x hfree hx
      have hne2 : (x ++ ['\n']).isEmpty = false := isEmptyFalse (by simp)
      have hlast : (x ++ ['\n']).getLast? = some '\n' := List.getLast?_concat _
      have hgd : lines[k]?.getD [] = x := by
        rw [hx]
        rfl
      by_cases hts : t ≤ getTimeString (x ++ ['\n'])
      · right
        refine ⟨k, le_rfl, hklt, ?_, by rw [hgd]; exact hts, fun i h1 h2 => by omega⟩
        simp only [seekTimeInChunkAux]
        rw [hrl]
        simp [hne2, hlast, hhdr x hmemx, hts]
      · have hts2 : getTimeString (x ++ ['\n']) < t := not_le.mp hts
        have harith : lineStart lines k + (x.length + 1) = lineStart lines (k + 1) := by
          rw [lineStartSucc lines k x hx]
        have hstep : seekTimeInChunkAux contf (fileOfLines lines) t (f + 1)
              (lineStart lines k)
            = seekTimeInChunkAux contf (fileOfLines lines) t f (lineStart lines (k + 1)) := by
          simp only [seekTimeInChunkAux]
          rw [hrl]
          simp [hne2, hlast, hhdr x hmemx, hts, harith]
        rcases ih (k + 1) (by omega) (by omega) with ⟨heq, hall⟩
          | ⟨k2, hk2a, hk2b, hk2eq, hk2ts, hk2all⟩
        · left
          refine ⟨by rw [hstep]; exact heq, ?_⟩
          intro l hl
          rw [dropConsAt lines k x hx] at hl
          rcases List.mem_cons.mp hl with he | hl2
          · subst he
            exact hts2
          · exact hall l hl2
        · right
          refine ⟨k2, by omega, hk2b, by rw [hstep]; exact hk2eq, hk2ts, ?_⟩
          intro i h1 h2
          rcases Nat.eq_or_lt_of_le h1 with he | hlt2
          · rw [← he, hgd]
            exact hts2
          · exact hk2all i (by omega) h2

theorem scanMid (contf : List Char → Bool) (lines : List (List Char)) (t : List Char)
    (hfree : ∀ l ∈ lines, '\n' ∉ l)
    (hpart : ∀ l ∈ lines, ∀ d, 0 < d → d ≤ l.length →
      contf (l.drop d ++ ['\n']) = true)
    (f k d : Nat) (x : List Char) (hx : lines[k]? = some x)
    (hd1 : 0 < d) (hd2 : d ≤ x.length) :
    seekTimeInChunkAux contf (fileOfLines lines) t (f + 1) (lineStart lines k + d)
      = seekTimeInChunkAux contf (fileOfLines lines) t f (lineStart lines (k + 1)) := by
  have hrl := readLineMid lines k d x hfree hx hd2
  have hne2 : (x.drop d ++ ['\n']).isEmpty = false := isEmptyFalse (by simp)
  have hlast : (x.drop d ++ ['\n']).getLast? = some '\n' := List.getLast?_concat _
  have hcont := hpart x (memOfGetq hx) d hd1 hd2
  have harith : lineStart lines k + d + (x.length - d + 1) = lineStart lines (k + 1) := by
    rw [lineStartSucc lines k x hx]
    omega
  simp only [seekTimeInChunkAux]
  rw [hrl]
  simp [hne2, hlast, hcont, harith]

theorem skipPastEof (contf : List Char → Bool) (file : List Char) (fuel p : Nat)
    (h : file.length ≤ p) :
    skipContinuation contf file fuel p = ([], p) := by
  cases fuel with
  | zero =>
    simp only [skipContinuation]
    rw [readLinePastEof file p h]
    simp
  | succ f =>
    simp only [skipContinuation]
    rw [readLinePastEof file p h]
    simp

theorem skipAtStart (contf : List Char → Bool) (lines : List (List Char))
    (hfree : ∀ l ∈ lines, '\n' ∉ l)
    (hhdr : ∀ l ∈ lines, contf (l ++ ['\n']) = false)
    (f k : Nat) (x : List Char) (hx : lines[k]? = some x) :
    skipContinuation contf (fileOfLines lines) (f + 1) (lineStart lines k)
      = (x ++ ['\n'], lineStart lines (k + 1)) := by
  have hrl := readLineAtStart lines k x hfree hx
  have harith : lineStart lines k + (x.length + 1) = lineStart lines (k + 1) := by
    rw [lineStartSucc lines k x hx]
  simp only [skipContinuation]
  rw [hrl]
  simp [hhdr x (memOfGetq hx), harith]

theorem skipMid (contf : List Char → Bool) (lines : List (List Char))
    (hfree : ∀ l ∈ lines, '\n' ∉ l)
    (hpart : ∀ l ∈ lines, ∀ d, 0 < d → d ≤ l.length →
      contf (l.drop d ++ ['\n']) = true)
    (f k d : Nat) (x : List Char) (hx : lines[k]? = some x)
    (hd1 : 0 < d) (hd2 : d ≤ x.length) :
    skipContinuation contf (fileOfLines lines) (f + 1) (lineStart lines k + d)
      = skipContinuation contf (fileOfLines lines) f (lineStart lines (k + 1)) := by
  have hrl := readLineMid lines k d x hfree hx hd2
  have hne2 : (x.drop d ++ ['\n']).isEmpty = false := isEmptyFalse (by simp)
  have hcont := hpart x (memOfGetq hx) d hd1 hd2
  have harith : lineStart lines k + d + (x.length - d + 1) = lineStart lines (k + 1) := by
    rw [lineStartSucc lines k x hx]
    omega
  simp only [skipContinuation]
  rw [hrl]
  simp [hne2, hcont, harith]

theorem lineStartStrictMono (lines : List (List Char)) (i j : Nat) (hij : i < j)
    (hj : j ≤ lines.length) :
    lineStart lines i < lineStart lines j := by
  have hmid := lineStartAddMid lines i j (by omega)
  have hlen : ((lines.drop i).take (j - i)).length = j - i := by
    rw [List.length_take, List.length_drop]
    omega
  have hge := segLenSumGeLen ((lines.drop i).take (j - i))
  omega

theorem bcsInv (ft : Nat → List Char) (t : List Char) :
    ∀ (fuel start stop : Nat), (start = 0 ∨ ¬ (t < ft start)) →
      (binaryChunkSearch ft t fuel start stop = 0
        ∨ ¬ (t < ft (binaryChunkSearch ft t fuel start stop))) := by
  intro fuel
  induction fuel with
  | zero =>
    intro start stop h
    simpa [binaryChunkSearch] using h
  | succ f ih =>
    intro start stop h
    simp only [binaryChunkSearch]
    by_cases h1 : start + 1 = stop
    · rw [if_pos h1]
      exact h
    · rw [if_neg h1]
      by_cases h2 : t < ft ((start + stop) / 2)
      · rw [if_pos (decide_eq_true h2)]
        exact ih start ((start + stop) / 2) h
      · rw [if_neg (by simp [h2])]
        exact ih ((start + stop) / 2) stop (Or.inr h2)

theorem memDropOfGetq (lines : List (List Char)) (k i : Nat) (h1 : k ≤ i)
    (x : List Char) (hx : lines[i]? = some x) : x ∈ lines.drop k := by
  apply memOfGetq (l := lines.drop k) (j := i - k)
  rw [List.getElem?_drop, show k + (i - k) = i by omega]
  exact hx

theorem sortedTsLt (lines : List (List Char))
    (hsort : List.Chain' (· < ·)
      (lines.map (fun l => getTimeString (l ++ ['\n'])))) (i j : Nat)
    (hij : i < j) (hj : j < lines.length) :
    getTimeString ((lines[i]?.getD []) ++ ['\n'])
      < getTimeString ((lines[j]?.getD []) ++ ['\n']) := by
  have hp := List.chain'_iff_pairwise.mp hsort
  rw [List.pairwise_iff_getElem] at hp
  have hi : i < lines.length := by omega
  have h := hp i j (by simpa using hi) (by simpa using hj) hij
  simp only [List.getElem_map] at h
  rw [List.getElem?_eq_getElem hi, List.getElem?_eq_getElem hj]
  exact h

theorem readHeadTs (cfg : ParserConfig) (fid : Nat) (lines : List (List Char))
    (hfree : ∀ l ∈ lines, '\n' ∉ l) :
    ∀ (fuel k i : Nat) (e : LogEntry), k ≤ lines.length →
      lines.length - k < fuel →
      ((readAux cfg fid (fileOfLines lines) fuel (lineStart lines k) i).1).head? = some e →
      ∃ k2, k ≤ k2 ∧ k2 < lines.length
        ∧ e.ts = getTimeString ((lines[k2]?.getD []) ++ ['\n']) := by
  intro fuel
  induction fuel with
  | zero =>
    intro k i e h1 h2
    omega
  | succ f ih =>
    intro k i e hk hfuel hhead
    by_cases hkM : k = lines.length
    · subst hkM
      rw [lineStartLast, readAuxAtEnd _ _ _ _ _ _ le_rfl] at hhead
      simp at hhead
    · have hklt : k < lines.length := by omega
      obtain ⟨x, hx⟩ : ∃ x, lines[k]? = some x := by
        rw [List.getElem?_eq_getElem hklt]
        exact ⟨_, rfl⟩
      have hgd : lines[k]?.getD [] = x := by
        rw [hx]
        rfl
      have hrl := readLineAtStart lines k x hfree hx
      have hne2 : (x ++ ['\n']).isEmpty = false := isEmptyFalse (by simp)
      have harith : lineStart lines k + (x.length + 1) = lineStart lines (k + 1) := by
        rw [lineStartSucc lines k x hx]
      simp only [readAux] at hhead
      rw [hrl] at hhead
      by_cases hsw : pyStartswith ((x ++ ['\n']).take 23) ['2', '0'] = true
      · by_cases hcols : (pySplitCh cfg.delimiter (cfg.columnCount - 1)
            (pySliceFrom (x ++ ['\n']) 24)).length < cfg.columnCount
        · simp only [hne2, Bool.false_eq_true, if_false, hsw, Bool.not_true,
            List.length_append, List.length_cons, List.length_nil] at hhead
          rw [if_pos hcols] at hhead
          rw [show lineStart lines k + (x.length + (0 + 1)) = lineStart lines (k + 1) by
            omega] at hhead
          obtain ⟨k2, h1, h2, h3⟩ := ih (k + 1) i e (by omega) (by omega) hhead
          exact ⟨k2, by omega, h2, h3⟩
        · simp only [hne2, Bool.false_eq_true, if_false, hsw, Bool.not_true,
            List.length_append, List.length_cons, List.length_nil] at hhead
          rw [if_neg hcols] at hhead
          simp only [List.head?_cons, Option.some.injEq] at hhead
          refine ⟨k, le_rfl, hklt, ?_⟩
          rw [← hhead, hgd]
          rfl
      · have hsw2 : pyStartswith ((x ++ ['\n']).take 23) ['2', '0'] = false := by
          revert hsw
          cases pyStartswith ((x ++ ['\n']).take 23) ['2', '0'] <;> simp
        simp only [hne2, Bool.false_eq_true, if_false, hsw2, Bool.not_false, if_true,
          List.length_append, List.length_cons, List.length_nil] at hhead
        rw [show lineStart lines k + (x.length + (0 + 1)) = lineStart lines (k + 1) by
          omega] at hhead
        obtain ⟨k2, h1, h2, h3⟩ := ih (k + 1) i e (by omega) (by omega) hhead
        exact ⟨k2, by omega, h2, h3⟩

/-- C3 amended: on a file of newline-terminated lines that the parser all
classifies as headers (and whose mid-line suffixes it classifies as
continuations), with strictly increasing timestamp texts, `_seek_time(t)`
leaves the position either at end of file or at the start of a line whose
timestamp is at least `t`; every line starting before that position has
timestamp strictly below `t`; and the first entry the parser then returns,
if any, has timestamp at least `t`.  (Chunk size is arbitrary; the source
uses 1024.) -/
theorem seek_time_amended (lines : List (List Char)) (t : List Char) (C : Nat)
    (hfree : ∀ l ∈ lines, '\n' ∉ l)
    (hhdr : ∀ l ∈ lines, isContinuationLine (l ++ ['\n']) = false)
    (hpart : ∀ l ∈ lines, ∀ d, d < l.length →
      isContinuationLine (l.drop (d + 1) ++ ['\n']) = true)
    (hsort : List.Chain' (· < ·)
      (lines.map (fun l => getTimeString (l ++ ['\n']))))
    (hsent : t < ("greater than any time string").toList) :
    (seekTime isContinuationLine (fileOfLines lines) C t = (fileOfLines lines).length
      ∨ ∃ k, k < lines.length
          ∧ seekTime isContinuationLine (fileOfLines lines) C t = lineStart lines k
          ∧ t ≤ getTimeString ((lines[k]?.getD []) ++ ['\n'])) ∧
    (∀ j, j < lines.length
      → lineStart lines j < seekTime isContinuationLine (fileOfLines lines) C t
      → getTimeString ((lines[j]?.getD []) ++ ['\n']) < t) ∧
    (∀ e, ((readEntries defaultConfig 0 (fileOfLines lines)
        (seekTime isContinuationLine (fileOfLines lines) C t)).1).head? = some e →
      t ≤ e.ts) := by
  have hpart2 : ∀ l ∈ lines, ∀ d, 0 < d → d ≤ l.length →
      isContinuationLine (l.drop d ++ ['\n']) = true := by
    intro l hl d h1 h2
    have h3 := hpart l hl (d - 1) (by omega)
    rw [show d - 1 + 1 = d by omega] at h3
    exact h3
  have hL : (fileOfLines lines).length = segLenSum lines := fileOfLinesLength lines
  have hM : lines.length ≤ segLenSum lines := segLenSumGeLen lines
  have hP3Eof : ∀ e, ((readEntries defaultConfig 0 (fileOfLines lines)
      ((fileOfLines lines).length)).1).head? = some e → t ≤ e.ts := by
    intro e he
    unfold readEntries at he
    rw [readAuxAtEnd _ _ _ _ _ _ le_rfl] at he
    simp at he
  have hP3Start : ∀ k2, k2 < lines.length →
      t ≤ getTimeString ((lines[k2]?.getD []) ++ ['\n']) →
      ∀ e, ((readEntries defaultConfig 0 (fileOfLines lines)
        (lineStart lines k2)).1).head? = some e → t ≤ e.ts := by
    intro k2 hk2 hts e he
    unfold readEntries at he
    obtain ⟨k3, h1, h2, h3⟩ := readHeadTs defaultConfig 0 lines hfree
      ((fileOfLines lines).length + 1) k2 0 e (by omega) (by omega) he
    rw [h3]
    rcases Nat.eq_or_lt_of_le h1 with he2 | hlt
    · rw [← he2]
      exact hts
    · exact le_trans hts (le_of_lt (sortedTsLt lines hsort k2 k3 hlt h2))
  have hAsmEof : ∀ kk, kk ≤ lines.length →
      (∀ i, i < kk → i < lines.length →
        getTimeString ((lines[i]?.getD []) ++ ['\n']) < t) →
      (∀ l ∈ lines.drop kk, getTimeString (l ++ ['\n']) < t) →
      ∀ j2, j2 < lines.length →
        getTimeString ((lines[j2]?.getD []) ++ ['\n']) < t := by
    intro kk hkk hbelow hdrop j2 hj2
    by_cases hc : j2 < kk
    · exact hbelow j2 hc hj2
    · obtain ⟨x2, hx2⟩ : ∃ x2, lines[j2]? = some x2 := by
        rw [List.getElem?_eq_getElem hj2]
        exact ⟨_, rfl⟩
      have := hdrop x2 (memDropOfGetq lines kk j2 (by omega) x2 hx2)
      rw [hx2]
      exact this
  have hAsmFound : ∀ kk k2, kk ≤ k2 → k2 < lines.length →
      (∀ i, i < kk → i < lines.length →
        getTimeString ((lines[i]?.getD []) ++ ['\n']) < t) →
      (∀ i, kk ≤ i → i < k2 →
        getTimeString ((lines[i]?.getD []) ++ ['\n']) < t) →
      ∀ j2, j2 < lines.length → lineStart lines j2 < lineStart lines k2 →
        getTimeString ((lines[j2]?.getD []) ++ ['\n']) < t := by
    intro kk k2 hkk hk2 hbelow hmidr j2 hj2 hlt
    have hj2k2 : j2 < k2 := by
      by_contra hge
      push_neg at hge
      exact absurd hlt (not_lt.mpr (lineStartMono lines hge))
    by_cases hc : j2 < kk
    · exact hbelow j2 hc hj2
    · exact hmidr j2 (by omega) hj2k2
  have hcore : ∀ TT, (TT = 0
      ∨ ¬ (t < firstTimestampInChunk isContinuationLine (fileOfLines lines) C TT)) →
      let pos := seekTimeInChunkAux isContinuationLine (fileOfLines lines) t
        ((fileOfLines lines).length + 1) (C * TT)
      (pos = (fileOfLines lines).length
        ∨ ∃ k, k < lines.length ∧ pos = lineStart lines k
            ∧ t ≤ getTimeString ((lines[k]?.getD []) ++ ['\n'])) ∧
      (∀ j, j < lines.length → lineStart lines j < pos →
        getTimeString ((lines[j]?.getD []) ++ ['\n']) < t) ∧
      (∀ e, ((readEntries defaultConfig 0 (fileOfLines lines) pos).1).head? = some e →
        t ≤ e.ts) := by
    intro TT hTT
    by_cases hSL : (fileOfLines lines).length ≤ C * TT
    · -- seeking at or past end of file
      rcases hTT with hT0 | hft
      · -- then the file is empty
        subst hT0
        have hC0 : C * 0 = 0 := Nat.mul_zero C
        have hL0 : (fileOfLines lines).length = 0 := by omega
        have hM0 : lines.length = 0 := by omega
        have hpos : seekTimeInChunkAux isContinuationLine (fileOfLines lines) t
            ((fileOfLines lines).length + 1) (C * 0) = (fileOfLines lines).length :=
          scanPastEof isContinuationLine (fileOfLines lines) t
            ((fileOfLines lines).length + 1) (C * 0) (by omega)
            (by rw [hL0]; exact Nat.zero_le _)
        refine ⟨Or.inl hpos, fun j hj => by omega, ?_⟩
        rw [hpos]
        exact hP3Eof
      · exfalso
        have hsen : firstTimestampInChunk isContinuationLine (fileOfLines lines) C TT
            = ("greater than any time string").toList := by
          unfold firstTimestampInChunk
          rw [skipPastEof _ _ _ _ hSL]
          simp
        rw [hsen] at hft
        exact absurd hsent hft
    · push_neg at hSL
      have hSlt : C * TT < segLenSum lines := by omega
      obtain ⟨j, a, b, hjab, hjP⟩ := lineIdxOf lines (C * TT) hSlt
      have hjlt := getqLt hjab
      have hgdj : lines[j]?.getD [] = a ++ b := by
        rw [hjab]
        rfl
      by_cases ha0 : a.length = 0
      · -- the chunk boundary is a line start
        have hS : C * TT = lineStart lines j := by omega
        have hftle : (∀ i, i < j → i < lines.length →
            getTimeString ((lines[i]?.getD []) ++ ['\n']) < t) := by
          intro i hij hi
          rcases hTT with hT0 | hft
          · exfalso
            rw [hT0] at hS
            have hmono := lineStartStrictMono lines 0 j (by omega) (by omega)
            have h00 : lineStart lines 0 = 0 := rfl
            have hC0 : C * 0 = 0 := Nat.mul_zero C
            omega
          · have hft2 : firstTimestampInChunk isContinuationLine (fileOfLines lines) C TT
                = getTimeString ((a ++ b) ++ ['\n']) := by
              unfold firstTimestampInChunk
              rw [hS, skipAtStart isContinuationLine lines hfree hhdr
                ((fileOfLines lines).length) j (a ++ b) hjab]
              simp [isEmptyFalse, List.getLast?_concat]
            rw [hft2] at hft
            have hle := not_lt.mp hft
            calc getTimeString ((lines[i]?.getD []) ++ ['\n'])
                < getTimeString ((lines[j]?.getD []) ++ ['\n']) :=
                  sortedTsLt lines hsort i j hij hjlt
              _ ≤ t := by rw [hgdj]; exact hle
        rw [hS]
        rcases scanChar isContinuationLine lines t hfree hhdr
            ((fileOfLines lines).length + 1) j (by omega) (by omega)
          with ⟨heq, hall⟩ | ⟨k2, hk2a, hk2b, hk2eq, hk2ts, hk2all⟩
        · refine ⟨Or.inl heq, ?_, ?_⟩
          · intro j2 hj2 _
            exact hAsmEof j (by omega) hftle hall j2 hj2
          · rw [heq]
            exact hP3Eof
        · refine ⟨Or.inr ⟨k2, hk2b, hk2eq, hk2ts⟩, ?_, ?_⟩
          · intro j2 hj2 hlt
            rw [hk2eq] at hlt
            exact hAsmFound j k2 hk2a hk2b hftle hk2all j2 hj2 hlt
          · rw [hk2eq]
            exact hP3Start k2 hk2b hk2ts
      · -- the chunk boundary is strictly inside line j
        have ha0lt : 0 < a.length := by omega
        have hd2 : a.length ≤ (a ++ b).length := by simp
        have hft0 : TT ≠ 0 := by
          intro h0
          rw [h0] at hjP
          have hC0 : C * 0 = 0 := Nat.mul_zero C
          omega
        have hft : ¬ (t < firstTimestampInChunk isContinuationLine (fileOfLines lines) C TT) := by
          rcases hTT with h0 | hft
          · exact absurd h0 hft0
          · exact hft
        have hSmid : C * TT = lineStart lines j + a.length := hjP.symm
        by_cases hj1 : j + 1 = lines.length
        · exfalso
          have hsen : firstTimestampInChunk isContinuationLine (fileOfLines lines) C TT
              = ("greater than any time string").toList := by
            unfold firstTimestampInChunk
            rw [hSmid, skipMid isContinuationLine lines hfree hpart2
              ((fileOfLines lines).length) j a.length (a ++ b) hjab ha0lt hd2]
            rw [show lineStart lines (j + 1) = (fileOfLines lines).length by
              rw [hj1, lineStartLast]]
            rw [skipPastEof _ _ _ _ le_rfl]
            simp
          rw [hsen] at hft
          exact absurd hsent hft
        · have hj1lt : j + 1 < lines.length := by omega
          obtain ⟨y, hy⟩ : ∃ y, lines[j + 1]? = some y := by
            rw [List.getElem?_eq_getElem hj1lt]
            exact ⟨_, rfl⟩
          have hgdy : lines[j + 1]?.getD [] = y := by
            rw [hy]
            rfl
          have hL1 : 1 ≤ (fileOfLines lines).length := by omega
          have hft2 : firstTimestampInChunk isContinuationLine (fileOfLines lines) C TT
              = getTimeString (y ++ ['\n']) := by
            unfold firstTimestampInChunk
            rw [hSmid, skipMid isContinuationLine lines hfree hpart2
              ((fileOfLines lines).length) j a.length (a ++ b) hjab ha0lt hd2]
            rw [show (fileOfLines lines).length = ((fileOfLines lines).length - 1) + 1 by
              omega]
            rw [skipAtStart isContinuationLine lines hfree hhdr
              ((fileOfLines lines).length - 1) (j + 1) y hy]
            simp [isEmptyFalse, List.getLast?_concat]
          rw [hft2] at hft
          have hle := not_lt.mp hft
          have hbelow : ∀ i, i < j + 1 → i < lines.length →
              getTimeString ((lines[i]?.getD []) ++ ['\n']) < t := by
            intro i hij hi
            calc getTimeString ((lines[i]?.getD []) ++ ['\n'])
                < getTimeString ((lines[j + 1]?.getD []) ++ ['\n']) :=
                  sortedTsLt lines hsort i (j + 1) hij hj1lt
              _ ≤ t := by rw [hgdy]; exact hle
          have hstep : seekTimeInChunkAux isContinuationLine (fileOfLines lines) t
              ((fileOfLines lines).length + 1) (C * TT)
              = seekTimeInChunkAux isContinuationLine (fileOfLines lines) t
                ((fileOfLines lines).length) (lineStart lines (j + 1)) := by
            rw [hSmid]
            exact scanMid isContinuationLine lines t hfree hpart2
              ((fileOfLines lines).length) j a.length (a ++ b) hjab ha0lt hd2
          rw [hstep]
          rcases scanChar isContinuationLine lines t hfree hhdr
              ((fileOfLines lines).length) (j + 1) (by omega) (by omega)
            with ⟨heq, hall⟩ | ⟨k2, hk2a, hk2b, hk2eq, hk2ts, hk2all⟩
          · refine ⟨Or.inl heq, ?_, ?_⟩
            · intro j2 hj2 _
              exact hAsmEof (j + 1) (by omega) hbelow hall j2 hj2
            · rw [heq]
              exact hP3Eof
          · refine ⟨Or.inr ⟨k2, hk2b, hk2eq, hk2ts⟩, ?_, ?_⟩
            · intro j2 hj2 hlt
              rw [hk2eq] at hlt
              exact hAsmFound (j + 1) k2 hk2a hk2b hbelow hk2all j2 hj2 hlt
            · rw [hk2eq]
              exact hP3Start k2 hk2b hk2ts
  have hbcs := bcsInv (firstTimestampInChunk isContinuationLine (fileOfLines lines) C) t
    ((fileOfLines lines).length / C
      + (if (fileOfLines lines).length % C = 0 then 0 else 1) + 2) 0
    ((fileOfLines lines).length / C
      + (if (fileOfLines lines).length % C = 0 then 0 else 1) + 1)
    (Or.inl rfl)
  have hseek : seekTime isContinuationLine (fileOfLines lines) C t
      = seekTimeInChunkAux isContinuationLine (fileOfLines lines) t
          ((fileOfLines lines).length + 1)
          (C * binaryChunkSearch
              (firstTimestampInChunk isContinuationLine (fileOfLines lines) C) t
              ((fileOfLines lines).length / C
                + (if (fileOfLines lines).length % C = 0 then 0 else 1) + 2) 0
              ((fileOfLines lines).length / C
                + (if (fileOfLines lines).length % C = 0 then 0 else 1) + 1)) := rfl
  rw [hseek]
  exact hcore _ hbcs

set_option maxRecDepth 8000

/-- C3 counterexample: a file in which timestamps are not sorted — fifteen
75-byte lines, the first stamped 2000-01-09 and the rest 2000-01-01 — spans
two 1024-byte chunks; seeking to 2000-01-05 binary-searches into the second
chunk (whose timestamps all sort below the target) and runs to end of file,
position 1125, even though a header line with timestamp 2000-01-09 ≥ target
sits at position 0.  Both halves of the claim as stated fail: the position
is not at (nor before) that qualifying header. -/
theorem seek_time_counterexample :
    ¬ seekTimeClaim
      (fileOfLines ((("2000-01-09 00:00:00,000 ").toList ++ List.replicate 50 'a')
        :: List.replicate 14 (("2000-01-01 00:00:00,000 ").toList ++ List.replicate 50 'a')))
      (("2000-01-05 00:00:00,000").toList) := by
  intro h
  have h2 := h.2 0 (by decide) (by decide)
  exact absurd h2 (by decide)

/-- Witness for C3's amended theorem at a concrete three-line sorted file
with chunk size 16: all hypotheses hold by computation. -/
theorem seek_time_amended_witness :
    (seekTime isContinuationLine
          (fileOfLines [("2000-01-01 00:00:01,000 a").toList,
            ("2000-01-01 00:00:02,000 b").toList,
            ("2000-01-01 00:00:03,000 c").toList]) 16
          (("2000-01-01 00:00:02,000").toList)
        = (fileOfLines [("2000-01-01 00:00:01,000 a").toList,
            ("2000-01-01 00:00:02,000 b").toList,
            ("2000-01-01 00:00:03,000 c").toList]).length
      ∨ ∃ k, k < ([("2000-01-01 00:00:01,000 a").toList,
            ("2000-01-01 00:00:02,000 b").toList,
            ("2000-01-01 00:00:03,000 c").toList] : List (List Char)).length
          ∧ seekTime isContinuationLine
              (fileOfLines [("2000-01-01 00:00:01,000 a").toList,
                ("2000-01-01 00:00:02,000 b").toList,
                ("2000-01-01 00:00:03,000 c").toList]) 16
              (("2000-01-01 00:00:02,000").toList)
            = lineStart [("2000-01-01 00:00:01,000 a").toList,
                ("2000-01-01 00:00:02,000 b").toList,
                ("2000-01-01 00:00:03,000 c").toList] k
          ∧ ("2000-01-01 00:00:02,000").toList
            ≤ getTimeString (([("2000-01-01 00:00:01,000 a").toList,
                ("2000-01-01 00:00:02,000 b").toList,
                ("2000-01-01 00:00:03,000 c").toList][k]?.getD []) ++ ['\n'])) ∧
    (∀ j, j < ([("2000-01-01 00:00:01,000 a").toList,
          ("2000-01-01 00:00:02,000 b").toList,
          ("2000-01-01 00:00:03,000 c").toList] : List (List Char)).length
      → lineStart [("2000-01-01 00:00:01,000 a").toList,
            ("2000-01-01 00:00:02,000 b").toList,
            ("2000-01-01 00:00:03,000 c").toList] j
          < seekTime isContinuationLine
              (fileOfLines [("2000-01-01 00:00:01,000 a").toList,
                ("2000-01-01 00:00:02,000 b").toList,
                ("2000-01-01 00:00:03,000 c").toList]) 16
              (("2000-01-01 00:00:02,000").toList)
      → getTimeString (([("2000-01-01 00:00:01,000 a").toList,
            ("2000-01-01 00:00:02,000 b").toList,
            ("2000-01-01 00:00:03,000 c").toList][j]?.getD []) ++ ['\n'])
          < ("2000-01-01 00:00:02,000").toList) ∧
    (∀ e, ((readEntries defaultConfig 0
        (fileOfLines [("2000-01-01 00:00:01,000 a").toList,
          ("2000-01-01 00:00:02,000 b").toList,
          ("2000-01-01 00:00:03,000 c").toList])
        (seekTime isContinuationLine
          (fileOfLines [("2000-01-01 00:00:01,000 a").toList,
            ("2000-01-01 00:00:02,000 b").toList,
            ("2000-01-01 00:00:03,000 c").toList]) 16
          (("2000-01-01 00:00:02,000").toList))).1).head? = some e →
      ("2000-01-01 00:00:02,000").toList ≤ e.ts) :=
  seek_time_amended
    [("2000-01-01 00:00:01,000 a").toList,
      ("2000-01-01 00:00:02,000 b").toList,
      ("2000-01-01 00:00:03,000 c").toList]
    (("2000-01-01 00:00:02,000").toList) 16
    (by decide) (by decide) (by decide)
    (by
      simp only [List.map_cons, List.map_nil]
      exact List.chain'_cons.mpr ⟨by decide,
        List.chain'_cons.mpr ⟨by decide, List.chain'_singleton _⟩⟩)
    (by decide)
